import Mathlib

/-!
Verification of the MuHash3072 core from src/crypto/muhash.cpp against its
specification.  The wide build is modelled: 64-bit limbs, 48 limbs per
Num3072, double limbs of 128 bits.  A Num3072 is a `List Nat` of 48 limbs,
least significant first; machine arithmetic is embedded with explicit
`% 2 ^ 64` and `% 2 ^ 128` truncations exactly where the C code computes in
`limb_t` and `double_limb_t`.
-/

set_option maxRecDepth 8000

namespace MuHash

/-- Number of limbs of a Num3072 in the wide build (muhash.h). -/
def LIMBS : Nat := 48

/-- Bit width of a limb in the wide build (muhash.h). -/
def LIMB_SIZE : Nat := 64

/-- The constant C with P = 2 ^ 3072 - C (muhash.h). -/
def MAX_PRIME_DIFF : Nat := 1103717

/-- The prime modulus P = 2 ^ 3072 - 1103717. -/
def P : Nat := 2 ^ 3072 - 1103717

/-- Value of a 2-limb accumulator [c0, c1]. -/
def val2 (c : Nat × Nat) : Nat := c.1 + 2 ^ 64 * c.2

/-- Value of a 3-limb accumulator [c0, c1, c2]. -/
def val3 (c : Nat × Nat × Nat) : Nat := c.1 + 2 ^ 64 * c.2.1 + 2 ^ 128 * c.2.2

/-- Value of a limb list, least significant limb first. -/
def limbsVal : List Nat → Nat
  | [] => 0
  | d :: ds => d + 2 ^ 64 * limbsVal ds

/-- Well-formed Num3072 limb list: 48 limbs, each below 2 ^ 64. -/
def wfN (l : List Nat) : Prop := l.length = LIMBS ∧ ∀ v ∈ l, v < 2 ^ 64

instance wfN_decidable (l : List Nat) : Decidable (wfN l) :=
  inferInstanceAs (Decidable (l.length = LIMBS ∧ ∀ v ∈ l, v < 2 ^ 64))

/-- mul from muhash.cpp: [c0, c1] = a * b. -/
def mul (a b : Nat) : Nat × Nat :=
  let t := a * b % 2 ^ 128
  (t % 2 ^ 64, t / 2 ^ 64)

/-- muladd3 from muhash.cpp: [c0, c1, c2] += a * b. -/
def muladd3 (c : Nat × Nat × Nat) (a b : Nat) : Nat × Nat × Nat :=
  let t := a * b % 2 ^ 128
  let th := t / 2 ^ 64
  let tl := t % 2 ^ 64
  let c0 := (c.1 + tl) % 2 ^ 64
  let th := (th + (if c0 < tl then 1 else 0)) % 2 ^ 64
  let c1 := (c.2.1 + th) % 2 ^ 64
  let c2 := (c.2.2 + (if c1 < th then 1 else 0)) % 2 ^ 64
  (c0, c1, c2)

/-- muldbladd3 from muhash.cpp: [c0, c1, c2] += 2 * a * b. -/
def muldbladd3 (c : Nat × Nat × Nat) (a b : Nat) : Nat × Nat × Nat :=
  let t := a * b % 2 ^ 128
  let th := t / 2 ^ 64
  let tl := t % 2 ^ 64
  let c0 := (c.1 + tl) % 2 ^ 64
  let tt := (th + (if c0 < tl then 1 else 0)) % 2 ^ 64
  let c1 := (c.2.1 + tt) % 2 ^ 64
  let c2 := (c.2.2 + (if c1 < tt then 1 else 0)) % 2 ^ 64
  let c0' := (c0 + tl) % 2 ^ 64
  let th' := (th + (if c0' < tl then 1 else 0)) % 2 ^ 64
  let c1' := (c1 + th') % 2 ^ 64
  let c2' := (c2 + (if c1' < th' then 1 else 0)) % 2 ^ 64
  (c0', c1', c2')

/-- mulnadd3 from muhash.cpp: [c0, c1, c2] += n * [d0, d1, d2], where the code
overwrites c2 with the final high word (its comment requires c2 = 0 on entry). -/
def mulnadd3 (c : Nat × Nat × Nat) (d : Nat × Nat × Nat) (n : Nat) : Nat × Nat × Nat :=
  let t := (d.1 * n + c.1) % 2 ^ 128
  let c0 := t % 2 ^ 64
  let t := (t / 2 ^ 64 + d.2.1 * n + c.2.1) % 2 ^ 128
  let c1 := t % 2 ^ 64
  let c2 := (t / 2 ^ 64 + d.2.2 * n % 2 ^ 64) % 2 ^ 64
  (c0, c1, c2)

/-- muln2 from muhash.cpp: [c0, c1] *= n. -/
def muln2 (c : Nat × Nat) (n : Nat) : Nat × Nat :=
  let t := c.1 * n % 2 ^ 128
  let c0 := t % 2 ^ 64
  let t := (t / 2 ^ 64 + c.2 * n) % 2 ^ 128
  (c0, t % 2 ^ 64)

/-- add2 from muhash.cpp: [c0, c1] += a. -/
def add2 (c : Nat × Nat) (a : Nat) : Nat × Nat :=
  let c0 := (c.1 + a) % 2 ^ 64
  (c0, (c.2 + (if c0 < a then 1 else 0)) % 2 ^ 64)

/-- IsOverflow from muhash.cpp: true when the represented value is at least P. -/
def IsOverflow (d : List Nat) : Bool :=
  (decide (2 ^ 64 - 1 - MAX_PRIME_DIFF < d.getD 0 0)) &&
    ((List.range' 1 (LIMBS - 1)).all fun i => d.getD i 0 == 2 ^ 64 - 1)

/-- Limb loop of FullReduce from muhash.cpp, rippling the carry c0. -/
def FullReduceGo (c0 : Nat) : List Nat → List Nat
  | [] => []
  | d :: ds =>
    let s := add2 (c0, 0) d
    s.1 :: FullReduceGo s.2 ds

/-- FullReduce from muhash.cpp: add MAX_PRIME_DIFF with carry over all limbs. -/
def FullReduce (d : List Nat) : List Nat := FullReduceGo MAX_PRIME_DIFF d

/-- High diagonal of output limb j in Multiply: the initial mul plus the
muladd3 loop over i from 2 + j below LIMBS (muhash.cpp lines 146 to 147). -/
def mulHigh (x y : List Nat) (j : Nat) : Nat × Nat × Nat :=
  let m := mul (x.getD (1 + j) 0) (y.getD (LIMBS + j - (1 + j)) 0)
  (List.range' (2 + j) (LIMBS - (2 + j))).foldl
    (fun d i => muladd3 d (x.getD i 0) (y.getD (LIMBS + j - i) 0)) (m.1, m.2, 0)

/-- One iteration of the first pass of Multiply for output limb j: fold the
high diagonal through mulnadd3, add the low diagonal, and emit one limb of
tmp via extract3 (muhash.cpp lines 144 to 151). -/
def mulStep (x y : List Nat) (s : (Nat × Nat) × List Nat) (j : Nat) : (Nat × Nat) × List Nat :=
  let d := mulHigh x y j
  let c := mulnadd3 (s.1.1, s.1.2, 0) d MAX_PRIME_DIFF
  let c := (List.range (j + 1)).foldl
    (fun c i => muladd3 c (x.getD i 0) (y.getD (j - i) 0)) c
  ((c.2.1, c.2.2), s.2 ++ [c.1])

/-- Final limb LIMBS - 1 of the first pass of Multiply (muhash.cpp lines
152 to 157). -/
def mulLast (x y : List Nat) (s : (Nat × Nat) × List Nat) : (Nat × Nat) × List Nat :=
  let c := (List.range LIMBS).foldl
    (fun c i => muladd3 c (x.getD i 0) (y.getD (LIMBS - 1 - i) 0)) (s.1.1, s.1.2, 0)
  ((c.2.1, c.2.2), s.2 ++ [c.1])

/-- Second reduction pass shared by Multiply and Square: ripple the folded
carry into the limbs of tmp via add2 and extract2 (muhash.cpp lines
160 to 163). -/
def mulPass2 : Nat × Nat → List Nat → List Nat × (Nat × Nat)
  | cc, [] => ([], cc)
  | cc, t :: ts =>
    let s := add2 cc t
    let r := mulPass2 (s.2, 0) ts
    (s.1 :: r.1, r.2)

/-- Multiply from muhash.cpp up to but not including the conditional third
reduction: returns the output limbs and the residual carry [c0, c1]. -/
def multiplyCore (x y : List Nat) : List Nat × (Nat × Nat) :=
  let s := mulLast x y ((List.range (LIMBS - 1)).foldl (mulStep x y) ((0, 0), []))
  mulPass2 (muln2 s.1 MAX_PRIME_DIFF) s.2

/-- Multiply from muhash.cpp: in_out becomes in_out times a modulo folding,
with the conditional FullReduce when the surplus carry bit is set. -/
def Multiply (x y : List Nat) : List Nat :=
  let r := multiplyCore x y
  if r.2.1 ≠ 0 then FullReduce r.1 else r.1

/-- High diagonal of output limb j in Square: doubled cross products and the
parity-selected middle square term (muhash.cpp lines 180 to 181). -/
def sqrHigh (x : List Nat) (j : Nat) : Nat × Nat × Nat :=
  let d := (List.range ((LIMBS - 1 - j) / 2)).foldl
    (fun d i => muldbladd3 d (x.getD (i + j + 1) 0) (x.getD (LIMBS - 1 - i) 0)) (0, 0, 0)
  if (j + 1) % 2 = 1 then
    muladd3 d (x.getD ((LIMBS - 1 - j) / 2 + j + 1) 0) (x.getD (LIMBS - 1 - (LIMBS - 1 - j) / 2) 0)
  else d

/-- One iteration of the first pass of Square for output limb j (muhash.cpp
lines 178 to 185). -/
def sqrStep (x : List Nat) (s : (Nat × Nat) × List Nat) (j : Nat) : (Nat × Nat) × List Nat :=
  let d := sqrHigh x j
  let c := mulnadd3 (s.1.1, s.1.2, 0) d MAX_PRIME_DIFF
  let c := (List.range ((j + 1) / 2)).foldl
    (fun c i => muldbladd3 c (x.getD i 0) (x.getD (j - i) 0)) c
  let c := if (j + 1) % 2 = 1 then
    muladd3 c (x.getD ((j + 1) / 2) 0) (x.getD (j - (j + 1) / 2) 0) else c
  ((c.2.1, c.2.2), s.2 ++ [c.1])

/-- Final limb LIMBS - 1 of the first pass of Square (muhash.cpp lines
187 to 191). -/
def sqrLast (x : List Nat) (s : (Nat × Nat) × List Nat) : (Nat × Nat) × List Nat :=
  let c := (List.range (LIMBS / 2)).foldl
    (fun c i => muldbladd3 c (x.getD i 0) (x.getD (LIMBS - 1 - i) 0)) (s.1.1, s.1.2, 0)
  ((c.2.1, c.2.2), s.2 ++ [c.1])

/-- Square from muhash.cpp up to but not including the conditional third
reduction: returns the output limbs and the residual carry [c0, c1]. -/
def squareCore (x : List Nat) : List Nat × (Nat × Nat) :=
  let s := sqrLast x ((List.range (LIMBS - 1)).foldl (sqrStep x) ((0, 0), []))
  mulPass2 (muln2 s.1 MAX_PRIME_DIFF) s.2

/-- Square from muhash.cpp. -/
def Square (x : List Nat) : List Nat :=
  let r := squareCore x
  if r.2.1 ≠ 0 then FullReduce r.1 else r.1

/-- n successive applications of Square, as in the inner loops of Inverse. -/
def nsquare : Nat → List Nat → List Nat
  | 0, x => x
  | n + 1, x => nsquare n (Square x)

/-- The repunit table p of Inverse: p i is a to the power 2 ^ 2 ^ i - 1,
built by squaring p i exactly 2 ^ i times and multiplying by p i
(muhash.cpp lines 215 to 221). -/
def ptab (a : List Nat) : Nat → List Nat
  | 0 => a
  | i + 1 => Multiply (nsquare (2 ^ i) (ptab a i)) (ptab a i)

/-- Inverse from muhash.cpp: the fixed sliding-window addition chain over the
repunit table computing a to the power P - 2 (muhash.cpp lines 223 to 254). -/
def Inverse (a : List Nat) : List Nat :=
  let x := ptab a 11
  let x := Multiply (nsquare 512 x) (ptab a 9)
  let x := Multiply (nsquare 256 x) (ptab a 8)
  let x := Multiply (nsquare 128 x) (ptab a 7)
  let x := Multiply (nsquare 64 x) (ptab a 6)
  let x := Multiply (nsquare 32 x) (ptab a 5)
  let x := Multiply (nsquare 8 x) (ptab a 3)
  let x := Multiply (nsquare 2 x) (ptab a 1)
  let x := Multiply (nsquare 1 x) (ptab a 0)
  let x := Multiply (nsquare 5 x) (ptab a 2)
  let x := Multiply (nsquare 3 x) (ptab a 0)
  let x := Multiply (nsquare 2 x) (ptab a 0)
  let x := Multiply (nsquare 4 x) (ptab a 0)
  let x := Multiply (nsquare 4 x) (ptab a 1)
  Multiply (nsquare 3 x) (ptab a 0)

/-- The MuHash3072 accumulator state: a single Num3072 (muhash.h). -/
structure MuHash3072 where
  data : List Nat

/-- The default MuHash3072 constructor: limb 0 is 1, all other limbs 0
(muhash.cpp lines 259 to 263). -/
def identityMuHash : MuHash3072 := ⟨1 :: List.replicate (LIMBS - 1) 0⟩

/-- ReadLE64 from crypto/common.h on a byte list at a given offset.
Modelled from the spec: the helper lives outside the given sources; the spec
requires the 384 keystream bytes to be loaded little-endian into the limbs. -/
def readLE64 (b : List Nat) (off : Nat) : Nat :=
  ((List.range 8).map fun i => b.getD (off + i) 0 * 2 ^ (8 * i)).sum

/-- The MuHash3072 constructor from a 32-byte key, with the ChaCha20 keystream
abstracted. Modelled from the spec: ChaCha20 is an external collaborator that
expands the 32-byte seed to a 384-byte keystream; this takes the keystream
bytes directly and loads them little-endian into the limbs (muhash.cpp lines
265 to 277). -/
def fromKeystream (ks : List Nat) : MuHash3072 :=
  ⟨(List.range LIMBS).map fun i => readLE64 ks (8 * i)⟩

/-- WriteLE64 from crypto/common.h: serialize one limb to 8 bytes, little
endian first. -/
def writeLE64 (v : Nat) : List Nat :=
  (List.range 8).map fun i => v / 2 ^ (8 * i) % 2 ^ 8

/-- MuHash3072 Finalize from muhash.cpp: apply FullReduce when IsOverflow
holds, then serialize the limbs little-endian into 384 bytes.  Returns the
object state after the call together with the written bytes. -/
def finalizeMuHash (h : MuHash3072) : MuHash3072 × List Nat :=
  let d := if IsOverflow h.data then FullReduce h.data else h.data
  (⟨d⟩, (d.map writeLE64).flatten)

/-- MuHash3072 multiplication assignment from muhash.cpp: multiplies the
operand into this object and leaves the operand untouched.  Returns the pair
of the updated left object and the right operand after the call. -/
def opMulAssign (h x : MuHash3072) : MuHash3072 × MuHash3072 :=
  (⟨Multiply h.data x.data⟩, x)

/-- MuHash3072 division assignment from muhash.cpp: computes the inverse of
the operand into a temporary and multiplies that into this object.  Returns
the pair of the updated left object and the right operand after the call. -/
def opDivAssign (h x : MuHash3072) : MuHash3072 × MuHash3072 :=
  let tmp := Inverse x.data
  (⟨Multiply h.data tmp⟩, x)

/-- Pointwise sum of two limb lists (ragged lengths allowed). -/
def addP : List Nat → List Nat → List Nat
  | [], l => l
  | a :: as, [] => a :: as
  | a :: as, b :: bs => (a + b) :: addP as bs

/-- Convolution of two limb lists viewed as polynomial coefficient lists. -/
def lconv : List Nat → List Nat → List Nat
  | [], _ => []
  | x :: xs, ys => addP (ys.map fun v => x * v) (0 :: lconv xs ys)

/-- Coefficient m of the product of two limb lists: the diagonal sum of
products of limbs with indices adding to m. -/
def convAt (x y : List Nat) (m : Nat) : Nat :=
  ((List.range x.length).map fun i => if i ≤ m then x.getD i 0 * y.getD (m - i) 0 else 0).sum

/-- The combined contribution of output limb j in the first pass: the low
diagonal plus MAX_PRIME_DIFF times the folded-down high diagonal. -/
def stepRHS (x y : List Nat) (j : Nat) : Nat :=
  convAt x y j + MAX_PRIME_DIFF * convAt x y (48 + j)

/-- Concrete operand with value 2: limb 0 is 2, all other limbs 0. -/
def cexX : List Nat := 2 :: List.replicate 47 0

/-- Concrete operand with value (P + 1) / 2 = 2 ^ 3071 - 551858, canonical. -/
def cexY : List Nat :=
  (2 ^ 64 - 551858) :: (List.replicate 46 (2 ^ 64 - 1) ++ [2 ^ 63 - 1])

/-- The limbs of P itself: the smallest non-canonical representable value. -/
def pLimbs : List Nat := (2 ^ 64 - 1103717) :: List.replicate 47 (2 ^ 64 - 1)

/-- A 384-byte keystream that loads to the value P. -/
def ksP : List Nat := (pLimbs.map writeLE64).flatten

theorem LIMBS_eq : LIMBS = 48 := rfl

theorem muladd3_val (c : Nat × Nat × Nat) (a b : Nat)
    (h0 : c.1 < 2 ^ 64) (h1 : c.2.1 < 2 ^ 64) (h2 : c.2.2 < 2 ^ 64)
    (ha : a < 2 ^ 64) (hb : b < 2 ^ 64) :
    val3 (muladd3 c a b) = (val3 c + a * b) % 2 ^ 192 ∧
      (muladd3 c a b).1 < 2 ^ 64 ∧ (muladd3 c a b).2.1 < 2 ^ 64 ∧
      (muladd3 c a b).2.2 < 2 ^ 64 := by
  obtain ⟨c0, c1, c2⟩ := c
  dsimp only at *
  have hab : a * b ≤ (2 ^ 64 - 1) * (2 ^ 64 - 1) :=
    Nat.mul_le_mul (by omega) (by omega)
  simp only [muladd3, val3]
  generalize a * b = t at hab ⊢
  have h128 : t % 2 ^ 128 = t := Nat.mod_eq_of_lt (by omega)
  rw [h128]
  have hsp : t % 2 ^ 64 + 2 ^ 64 * (t / 2 ^ 64) = t := Nat.mod_add_div t (2 ^ 64)
  have htl : t % 2 ^ 64 < 2 ^ 64 := Nat.mod_lt t (by norm_num)
  have hth : t / 2 ^ 64 < 2 ^ 64 - 1 := by omega
  generalize t % 2 ^ 64 = tl at *
  generalize t / 2 ^ 64 = th at *
  have e0 : (c0 + tl) % 2 ^ 64 + 2 ^ 64 * (if (c0 + tl) % 2 ^ 64 < tl then 1 else 0) =
      c0 + tl := by split_ifs <;> omega
  set k0 := if (c0 + tl) % 2 ^ 64 < tl then (1 : Nat) else 0 with hk0
  have hk0b : k0 ≤ 1 := by rw [hk0]; split_ifs <;> omega
  have eth : (th + k0) % 2 ^ 64 = th + k0 := Nat.mod_eq_of_lt (by omega)
  rw [eth]
  have e1 : (c1 + (th + k0)) % 2 ^ 64 +
      2 ^ 64 * (if (c1 + (th + k0)) % 2 ^ 64 < th + k0 then 1 else 0) = c1 + (th + k0) := by
    split_ifs <;> omega
  set k1 := if (c1 + (th + k0)) % 2 ^ 64 < th + k0 then (1 : Nat) else 0 with hk1
  have hk1b : k1 ≤ 1 := by rw [hk1]; split_ifs <;> omega
  omega

theorem muldbladd3_val (c : Nat × Nat × Nat) (a b : Nat)
    (h0 : c.1 < 2 ^ 64) (h1 : c.2.1 < 2 ^ 64) (h2 : c.2.2 < 2 ^ 64)
    (ha : a < 2 ^ 64) (hb : b < 2 ^ 64) :
    val3 (muldbladd3 c a b) = (val3 c + 2 * (a * b)) % 2 ^ 192 ∧
      (muldbladd3 c a b).1 < 2 ^ 64 ∧ (muldbladd3 c a b).2.1 < 2 ^ 64 ∧
      (muldbladd3 c a b).2.2 < 2 ^ 64 := by
  obtain ⟨c0, c1, c2⟩ := c
  dsimp only at *
  have hab : a * b ≤ (2 ^ 64 - 1) * (2 ^ 64 - 1) :=
    Nat.mul_le_mul (by omega) (by omega)
  simp only [muldbladd3, val3]
  generalize a * b = t at hab ⊢
  have h128 : t % 2 ^ 128 = t := Nat.mod_eq_of_lt (by omega)
  rw [h128]
  have hsp : t % 2 ^ 64 + 2 ^ 64 * (t / 2 ^ 64) = t := Nat.mod_add_div t (2 ^ 64)
  have htl : t % 2 ^ 64 < 2 ^ 64 := Nat.mod_lt t (by norm_num)
  have hth : t / 2 ^ 64 < 2 ^ 64 - 1 := by omega
  generalize t % 2 ^ 64 = tl at *
  generalize t / 2 ^ 64 = th at *
  have e0 : (c0 + tl) % 2 ^ 64 + 2 ^ 64 * (if (c0 + tl) % 2 ^ 64 < tl then 1 else 0) =
      c0 + tl := by split_ifs <;> omega
  set k0 := if (c0 + tl) % 2 ^ 64 < tl then (1 : Nat) else 0 with hk0
  have hk0a : k0 ≤ 1 := by rw [hk0]; split_ifs <;> omega
  have eth : (th + k0) % 2 ^ 64 = th + k0 := Nat.mod_eq_of_lt (by omega)
  rw [eth]
  set c1a := (c1 + (th + k0)) % 2 ^ 64 with hc1a
  have hc1al : c1a < 2 ^ 64 := by rw [hc1a]; exact Nat.mod_lt _ (by norm_num)
  have e1 : c1a + 2 ^ 64 * (if c1a < th + k0 then 1 else 0) = c1 + (th + k0) := by
    rw [hc1a]; split_ifs <;> omega
  set k1 := if c1a < th + k0 then (1 : Nat) else 0 with hk1
  have hk1a : k1 ≤ 1 := by rw [hk1]; split_ifs <;> omega
  set c2a := (c2 + k1) % 2 ^ 64 with hc2a
  have hc2al : c2a < 2 ^ 64 := by rw [hc2a]; exact Nat.mod_lt _ (by norm_num)
  have e2 : c2a + 2 ^ 64 * ((c2 + k1) / 2 ^ 64) = c2 + k1 := by rw [hc2a]; omega
  set c0a := (c0 + tl) % 2 ^ 64 with hc0a
  have hc0al : c0a < 2 ^ 64 := by rw [hc0a]; exact Nat.mod_lt _ (by norm_num)
  have e0b : (c0a + tl) % 2 ^ 64 + 2 ^ 64 * (if (c0a + tl) % 2 ^ 64 < tl then 1 else 0) =
      c0a + tl := by split_ifs <;> omega
  set k0b := if (c0a + tl) % 2 ^ 64 < tl then (1 : Nat) else 0 with hk0b
  have hk0bb : k0b ≤ 1 := by rw [hk0b]; split_ifs <;> omega
  have ethb : (th + k0b) % 2 ^ 64 = th + k0b := Nat.mod_eq_of_lt (by omega)
  rw [ethb]
  have e1b : (c1a + (th + k0b)) % 2 ^ 64 +
      2 ^ 64 * (if (c1a + (th + k0b)) % 2 ^ 64 < th + k0b then 1 else 0) =
      c1a + (th + k0b) := by split_ifs <;> omega
  set k1b := if (c1a + (th + k0b)) % 2 ^ 64 < th + k0b then (1 : Nat) else 0 with hk1b
  have hk1bb : k1b ≤ 1 := by rw [hk1b]; split_ifs <;> omega
  omega

theorem mulnadd3_val (c d : Nat × Nat × Nat) (n : Nat)
    (h0 : c.1 < 2 ^ 64) (h1 : c.2.1 < 2 ^ 64)
    (hd0 : d.1 < 2 ^ 64) (hd1 : d.2.1 < 2 ^ 64) (hn : n < 2 ^ 64) :
    val3 (mulnadd3 c d n) =
      (c.1 + 2 ^ 64 * c.2.1 + n * (d.1 + 2 ^ 64 * d.2.1 + 2 ^ 128 * d.2.2)) % 2 ^ 192 ∧
      (mulnadd3 c d n).1 < 2 ^ 64 ∧ (mulnadd3 c d n).2.1 < 2 ^ 64 ∧
      (mulnadd3 c d n).2.2 < 2 ^ 64 := by
  obtain ⟨c0, c1, c2⟩ := c
  obtain ⟨d0, d1, d2⟩ := d
  dsimp only at *
  have e : n * (d0 + 2 ^ 64 * d1 + 2 ^ 128 * d2) =
      d0 * n + 2 ^ 64 * (d1 * n) + 2 ^ 128 * (d2 * n) := by ring
  have h0b : d0 * n ≤ (2 ^ 64 - 1) * (2 ^ 64 - 1) := Nat.mul_le_mul (by omega) (by omega)
  have h1b : d1 * n ≤ (2 ^ 64 - 1) * (2 ^ 64 - 1) := Nat.mul_le_mul (by omega) (by omega)
  simp only [mulnadd3, val3]
  rw [e]
  generalize d0 * n = t0 at *
  generalize d1 * n = t1 at *
  generalize d2 * n = t2 at *
  omega

theorem muln2_val (c : Nat × Nat) (n : Nat)
    (h0 : c.1 < 2 ^ 64) (h1 : c.2 < 2 ^ 64) (hn : n < 2 ^ 64) :
    val2 (muln2 c n) = val2 c * n % 2 ^ 128 ∧
      (muln2 c n).1 < 2 ^ 64 ∧ (muln2 c n).2 < 2 ^ 64 := by
  obtain ⟨c0, c1⟩ := c
  dsimp only at *
  have e : (c0 + 2 ^ 64 * c1) * n = c0 * n + 2 ^ 64 * (c1 * n) := by ring
  have h0b : c0 * n ≤ (2 ^ 64 - 1) * (2 ^ 64 - 1) := Nat.mul_le_mul (by omega) (by omega)
  have h1b : c1 * n ≤ (2 ^ 64 - 1) * (2 ^ 64 - 1) := Nat.mul_le_mul (by omega) (by omega)
  simp only [muln2, val2]
  rw [e]
  generalize c0 * n = t0 at *
  generalize c1 * n = t1 at *
  omega

theorem add2_val (c : Nat × Nat) (a : Nat)
    (h0 : c.1 < 2 ^ 64) (h1 : c.2 < 2 ^ 64) (ha : a < 2 ^ 64) :
    val2 (add2 c a) = (val2 c + a) % 2 ^ 128 ∧
      (add2 c a).1 < 2 ^ 64 ∧ (add2 c a).2 < 2 ^ 64 := by
  obtain ⟨c0, c1⟩ := c
  dsimp only at *
  simp only [add2, val2]
  split_ifs <;> omega

theorem sum_map_mul_left (c : Nat) (f : Nat → Nat) (l : List Nat) :
    (l.map fun i => c * f i).sum = c * (l.map f).sum := by
  induction l with
  | nil => simp
  | cons a l ih => simp [ih, Nat.mul_add]

theorem sum_map_congr {l : List Nat} {f g : Nat → Nat} (h : ∀ i ∈ l, f i = g i) :
    (l.map f).sum = (l.map g).sum := by
  rw [List.map_congr_left h]

theorem sum_map_le {l : List Nat} {f : Nat → Nat} {c : Nat} (h : ∀ i ∈ l, f i ≤ c) :
    (l.map f).sum ≤ l.length * c := by
  induction l with
  | nil => simp
  | cons a l ih =>
    simp only [List.map_cons, List.sum_cons, List.length_cons]
    have := ih fun i hi => h i (List.mem_cons_of_mem a hi)
    have := h a (List.mem_cons_self _ _)
    calc f a + (l.map f).sum ≤ c + l.length * c := by omega
      _ = (l.length + 1) * c := by ring

theorem sum_map_zero {l : List Nat} {f : Nat → Nat} (h : ∀ i ∈ l, f i = 0) :
    (l.map f).sum = 0 := by
  induction l with
  | nil => simp
  | cons a l ih =>
    simp only [List.map_cons, List.sum_cons]
    rw [h a (List.mem_cons_self _ _), ih fun i hi => h i (List.mem_cons_of_mem a hi)]

theorem sum_map_range_succ_shift (f : Nat → Nat) (n : Nat) :
    ((List.range (n + 1)).map f).sum = f 0 + ((List.range n).map fun i => f (i + 1)).sum := by
  rw [List.range_succ_eq_map]
  simp only [List.map_cons, List.sum_cons, List.map_map]
  rfl

theorem sum_map_range_add (f : Nat → Nat) (a b : Nat) :
    ((List.range (a + b)).map f).sum =
      ((List.range a).map f).sum + ((List.range b).map fun i => f (a + i)).sum := by
  rw [List.range_add, List.map_append, List.sum_append, List.map_map]
  rfl

theorem getD_lt {l : List Nat} (h : ∀ v ∈ l, v < 2 ^ 64) (n : Nat) : l.getD n 0 < 2 ^ 64 := by
  induction l generalizing n with
  | nil => simp [List.getD_nil]
  | cons a l ih =>
    cases n with
    | zero => rw [List.getD_cons_zero]; exact h a (List.mem_cons_self _ _)
    | succ n => rw [List.getD_cons_succ]; exact ih (fun v hv => h v (List.mem_cons_of_mem a hv)) n

theorem limbsVal_append (l : List Nat) (v : Nat) :
    limbsVal (l ++ [v]) = limbsVal l + 2 ^ (64 * l.length) * v := by
  induction l with
  | nil => simp [limbsVal]
  | cons a l ih =>
    have e1 : limbsVal ((a :: l) ++ [v]) = a + 2 ^ 64 * limbsVal (l ++ [v]) := rfl
    have e2 : limbsVal (a :: l) = a + 2 ^ 64 * limbsVal l := rfl
    rw [e1, e2, ih, List.length_cons,
      show 64 * (l.length + 1) = 64 * l.length + 64 by ring, pow_add]
    ring

theorem limbsVal_lt {l : List Nat} (h : ∀ v ∈ l, v < 2 ^ 64) :
    limbsVal l < 2 ^ (64 * l.length) := by
  induction l with
  | nil => simp [limbsVal]
  | cons a l ih =>
    have ha := h a (List.mem_cons_self _ _)
    have hl := ih fun v hv => h v (List.mem_cons_of_mem a hv)
    simp only [limbsVal, List.length_cons]
    have : 2 ^ (64 * (l.length + 1)) = 2 ^ 64 * 2 ^ (64 * l.length) := by
      rw [Nat.mul_add, pow_add]; ring
    rw [this]
    nlinarith

theorem limbsVal_getD_sum (l : List Nat) (n : Nat) (h : l.length ≤ n) :
    limbsVal l = ((List.range n).map fun m => l.getD m 0 * 2 ^ (64 * m)).sum := by
  induction l generalizing n with
  | nil =>
    simp only [limbsVal]
    rw [eq_comm]
    exact sum_map_zero fun i _ => by simp [List.getD_nil]
  | cons a l ih =>
    obtain ⟨n, rfl⟩ : ∃ m, n = m + 1 := ⟨n - 1, by simp at h; omega⟩
    rw [sum_map_range_succ_shift]
    simp only [List.getD_cons_zero, List.getD_cons_succ, limbsVal]
    have hn : l.length ≤ n := by simp at h; omega
    rw [ih n hn]
    have : ∀ m : Nat, 2 ^ (64 * (m + 1)) = 2 ^ 64 * 2 ^ (64 * m) := fun m => by
      rw [Nat.mul_add, pow_add]; ring
    simp only [this]
    rw [eq_comm]
    have : ((List.range n).map fun i => l.getD i 0 * (2 ^ 64 * 2 ^ (64 * i))).sum =
        ((List.range n).map fun i => 2 ^ 64 * (l.getD i 0 * 2 ^ (64 * i))).sum := by
      exact sum_map_congr fun i _ => by ring
    rw [this, sum_map_mul_left]
    ring

theorem limbsVal_addP (a b : List Nat) : limbsVal (addP a b) = limbsVal a + limbsVal b := by
  induction a generalizing b with
  | nil => simp [addP, limbsVal]
  | cons x xs ih =>
    cases b with
    | nil => simp [addP, limbsVal]
    | cons y ys => simp only [addP, limbsVal, ih]; ring

theorem getD_addP (a b : List Nat) (m : Nat) :
    (addP a b).getD m 0 = a.getD m 0 + b.getD m 0 := by
  induction a generalizing b m with
  | nil => simp [addP, List.getD_nil]
  | cons x xs ih =>
    cases b with
    | nil => simp [addP, List.getD_nil]
    | cons y ys =>
      cases m with
      | zero => simp [addP, List.getD_cons_zero]
      | succ m => simp only [addP, List.getD_cons_succ]; exact ih ys m

theorem length_addP (a b : List Nat) : (addP a b).length = max a.length b.length := by
  induction a generalizing b with
  | nil => simp [addP]
  | cons x xs ih =>
    cases b with
    | nil => simp [addP]
    | cons y ys => simp only [addP, List.length_cons, ih]; omega

theorem limbsVal_map_mul (k : Nat) (l : List Nat) :
    limbsVal (l.map fun v => k * v) = k * limbsVal l := by
  induction l with
  | nil => simp [limbsVal]
  | cons a l ih => simp only [List.map_cons, limbsVal, ih]; ring

theorem limbsVal_lconv (x y : List Nat) :
    limbsVal (lconv x y) = limbsVal x * limbsVal y := by
  induction x with
  | nil => simp [lconv, limbsVal]
  | cons a x ih =>
    simp only [lconv, limbsVal_addP, limbsVal_map_mul, limbsVal, ih]
    ring

theorem length_lconv (x y : List Nat) : (lconv x y).length ≤ x.length + y.length := by
  induction x with
  | nil => simp [lconv]
  | cons a x ih =>
    simp only [lconv, length_addP, List.length_map, List.length_cons]
    omega

theorem getD_map_mul (k : Nat) (l : List Nat) (m : Nat) :
    (l.map fun v => k * v).getD m 0 = k * l.getD m 0 := by
  induction l generalizing m with
  | nil => simp [List.getD_nil]
  | cons a l ih =>
    cases m with
    | zero => simp [List.getD_cons_zero]
    | succ m => simp only [List.map_cons, List.getD_cons_succ]; exact ih m

theorem getD_lconv (x y : List Nat) (m : Nat) :
    (lconv x y).getD m 0 = convAt x y m := by
  induction x generalizing m with
  | nil => simp [lconv, convAt, List.getD_nil]
  | cons a x ih =>
    simp only [lconv, getD_addP, getD_map_mul, convAt, List.length_cons,
      sum_map_range_succ_shift]
    cases m with
    | zero =>
      rw [sum_map_zero fun i _ => if_neg (by omega)]
      simp [List.getD_cons_zero]
    | succ m =>
      simp only [List.getD_cons_zero, List.getD_cons_succ, Nat.sub_zero,
        if_pos (Nat.zero_le (m + 1))]
      rw [ih m, convAt]
      have : ((List.range x.length).map fun i =>
          if i + 1 ≤ m + 1 then x.getD i 0 * y.getD (m + 1 - (i + 1)) 0 else 0).sum =
          ((List.range x.length).map fun i =>
          if i ≤ m then x.getD i 0 * y.getD (m - i) 0 else 0).sum := by
        refine sum_map_congr fun i _ => ?_
        rw [show m + 1 - (i + 1) = m - i by omega]
        by_cases h : i ≤ m
        · rw [if_pos (by omega), if_pos h]
        · rw [if_neg (by omega), if_neg h]
      rw [this]

theorem convAt_top_zero (x y : List Nat) (hx : x.length = 48) (hy : y.length = 48) :
    convAt x y 95 = 0 := by
  rw [convAt, hx]
  refine sum_map_zero fun i hi => ?_
  have hi48 : i < 48 := List.mem_range.mp hi
  rw [if_pos (by omega), List.getD_eq_default y 0 (by omega), Nat.mul_zero]

theorem val_mul_split (x y : List Nat) (hx : wfN x) (hy : wfN y) :
    limbsVal x * limbsVal y =
      ((List.range 48).map fun m => convAt x y m * 2 ^ (64 * m)).sum +
        2 ^ 3072 * ((List.range 47).map fun m => convAt x y (48 + m) * 2 ^ (64 * m)).sum := by
  obtain ⟨hxl, hxb⟩ := hx
  obtain ⟨hyl, hyb⟩ := hy
  have hx48 : x.length = 48 := hxl
  have hy48 : y.length = 48 := hyl
  rw [← limbsVal_lconv]
  rw [limbsVal_getD_sum (lconv x y) 96
    (by have := length_lconv x y; omega)]
  have e1 : ((List.range 96).map fun m => (lconv x y).getD m 0 * 2 ^ (64 * m)).sum =
      ((List.range 96).map fun m => convAt x y m * 2 ^ (64 * m)).sum :=
    sum_map_congr fun m _ => by rw [getD_lconv]
  rw [e1, show (96 : Nat) = 48 + 48 by norm_num, sum_map_range_add]
  have e2 : ((List.range 48).map fun i => convAt x y (48 + i) * 2 ^ (64 * (48 + i))).sum =
      ((List.range 47).map fun i => convAt x y (48 + i) * 2 ^ (64 * (48 + i))).sum := by
    rw [show (48 : Nat) = 47 + 1 from rfl, List.range_succ, List.map_append, List.sum_append]
    rw [show (47 : Nat) + 1 = 48 from rfl]
    simp [convAt_top_zero x y hx48 hy48]
  rw [e2]
  have e4 : ((List.range 47).map fun i => convAt x y (48 + i) * 2 ^ (64 * (48 + i))).sum =
      ((List.range 47).map fun i => 2 ^ 3072 * (convAt x y (48 + i) * 2 ^ (64 * i))).sum :=
    sum_map_congr fun i _ => by
      rw [show 64 * (48 + i) = 3072 + 64 * i by ring, pow_add]; ring
  rw [e4, sum_map_mul_left]

theorem range_split (a b n : Nat) (h : a + b = n) :
    List.range' 0 a ++ List.range' a b = List.range n := by
  have h1 := List.range'_append 0 a b 1
  rw [show 0 + 1 * a = a by ring] at h1
  rw [show b + a = n by omega] at h1
  rw [List.range_eq_range']
  exact h1

theorem convAt_high (x y : List Nat) (hx : x.length = 48) (hy : y.length = 48)
    (j : Nat) (hj : j < 47) :
    convAt x y (48 + j) =
      ((List.range' (1 + j) (47 - j)).map fun i => x.getD i 0 * y.getD (48 + j - i) 0).sum := by
  rw [convAt, hx]
  have e1 : ((List.range 48).map fun i =>
      if i ≤ 48 + j then x.getD i 0 * y.getD (48 + j - i) 0 else 0).sum =
      ((List.range 48).map fun i => x.getD i 0 * y.getD (48 + j - i) 0).sum :=
    sum_map_congr fun i hi => if_pos (by have := List.mem_range.mp hi; omega)
  rw [e1, ← range_split (1 + j) (47 - j) 48 (by omega), List.map_append, List.sum_append]
  have e3 : ((List.range' 0 (1 + j)).map fun i => x.getD i 0 * y.getD (48 + j - i) 0).sum = 0 := by
    refine sum_map_zero fun i hi => ?_
    have hi' : 0 ≤ i ∧ i < 0 + (1 + j) := List.mem_range'_1.mp hi
    rw [List.getD_eq_default y 0 (by omega), Nat.mul_zero]
  rw [e3, Nat.zero_add]

theorem convAt_low (x y : List Nat) (hx : x.length = 48) (j : Nat) (hj : j ≤ 47) :
    convAt x y j = ((List.range (j + 1)).map fun i => x.getD i 0 * y.getD (j - i) 0).sum := by
  rw [convAt, hx, ← range_split (j + 1) (47 - j) 48 (by omega), List.map_append, List.sum_append]
  have e1 : ((List.range' (j + 1) (47 - j)).map fun i =>
      if i ≤ j then x.getD i 0 * y.getD (j - i) 0 else 0).sum = 0 := by
    refine sum_map_zero fun i hi => ?_
    have hi' : j + 1 ≤ i ∧ i < j + 1 + (47 - j) := List.mem_range'_1.mp hi
    exact if_neg (by omega)
  have e2 : ((List.range' 0 (j + 1)).map fun i =>
      if i ≤ j then x.getD i 0 * y.getD (j - i) 0 else 0).sum =
      ((List.range' 0 (j + 1)).map fun i => x.getD i 0 * y.getD (j - i) 0).sum := by
    refine sum_map_congr fun i hi => ?_
    have hi' : 0 ≤ i ∧ i < 0 + (j + 1) := List.mem_range'_1.mp hi
    exact if_pos (by omega)
  rw [e1, e2, Nat.add_zero, List.range_eq_range']

theorem convAt_le (x y : List Nat) (hx : x.length = 48)
    (hxb : ∀ v ∈ x, v < 2 ^ 64) (hyb : ∀ v ∈ y, v < 2 ^ 64) (m : Nat) :
    convAt x y m ≤ 48 * ((2 ^ 64 - 1) * (2 ^ 64 - 1)) := by
  rw [convAt, hx]
  have h := sum_map_le (l := List.range 48)
    (f := fun i => if i ≤ m then x.getD i 0 * y.getD (m - i) 0 else 0)
    (c := (2 ^ 64 - 1) * (2 ^ 64 - 1)) ?_
  · simpa using h
  · intro i _
    dsimp only
    split_ifs
    · exact Nat.mul_le_mul (by have := getD_lt hxb i; omega) (by have := getD_lt hyb (m - i); omega)
    · exact Nat.zero_le _

theorem foldl_muladd3 (f g : Nat → Nat) (l : List Nat) (c : Nat × Nat × Nat)
    (h0 : c.1 < 2 ^ 64) (h1 : c.2.1 < 2 ^ 64) (h2 : c.2.2 < 2 ^ 64)
    (hf : ∀ i ∈ l, f i < 2 ^ 64) (hg : ∀ i ∈ l, g i < 2 ^ 64) :
    val3 (l.foldl (fun c i => muladd3 c (f i) (g i)) c) =
      (val3 c + (l.map fun i => f i * g i).sum) % 2 ^ 192 ∧
      (l.foldl (fun c i => muladd3 c (f i) (g i)) c).1 < 2 ^ 64 ∧
      (l.foldl (fun c i => muladd3 c (f i) (g i)) c).2.1 < 2 ^ 64 ∧
      (l.foldl (fun c i => muladd3 c (f i) (g i)) c).2.2 < 2 ^ 64 := by
  induction l generalizing c with
  | nil =>
    refine ⟨?_, h0, h1, h2⟩
    simp only [List.foldl_nil, List.map_nil, List.sum_nil, Nat.add_zero]
    exact (Nat.mod_eq_of_lt (by simp only [val3]; omega)).symm
  | cons a l ih =>
    simp only [List.foldl_cons, List.map_cons, List.sum_cons]
    obtain ⟨hv, hb0, hb1, hb2⟩ := muladd3_val c (f a) (g a) h0 h1 h2
      (hf a (List.mem_cons_self _ _)) (hg a (List.mem_cons_self _ _))
    obtain ⟨iv, ib0, ib1, ib2⟩ := ih (muladd3 c (f a) (g a)) hb0 hb1 hb2
      (fun i hi => hf i (List.mem_cons_of_mem a hi))
      (fun i hi => hg i (List.mem_cons_of_mem a hi))
    refine ⟨?_, ib0, ib1, ib2⟩
    rw [iv, hv, Nat.mod_add_mod, Nat.add_assoc]

theorem foldl_muldbladd3 (f g : Nat → Nat) (l : List Nat) (c : Nat × Nat × Nat)
    (h0 : c.1 < 2 ^ 64) (h1 : c.2.1 < 2 ^ 64) (h2 : c.2.2 < 2 ^ 64)
    (hf : ∀ i ∈ l, f i < 2 ^ 64) (hg : ∀ i ∈ l, g i < 2 ^ 64) :
    val3 (l.foldl (fun c i => muldbladd3 c (f i) (g i)) c) =
      (val3 c + (l.map fun i => 2 * (f i * g i)).sum) % 2 ^ 192 ∧
      (l.foldl (fun c i => muldbladd3 c (f i) (g i)) c).1 < 2 ^ 64 ∧
      (l.foldl (fun c i => muldbladd3 c (f i) (g i)) c).2.1 < 2 ^ 64 ∧
      (l.foldl (fun c i => muldbladd3 c (f i) (g i)) c).2.2 < 2 ^ 64 := by
  induction l generalizing c with
  | nil =>
    refine ⟨?_, h0, h1, h2⟩
    simp only [List.foldl_nil, List.map_nil, List.sum_nil, Nat.add_zero]
    exact (Nat.mod_eq_of_lt (by simp only [val3]; omega)).symm
  | cons a l ih =>
    simp only [List.foldl_cons, List.map_cons, List.sum_cons]
    obtain ⟨hv, hb0, hb1, hb2⟩ := muldbladd3_val c (f a) (g a) h0 h1 h2
      (hf a (List.mem_cons_self _ _)) (hg a (List.mem_cons_self _ _))
    obtain ⟨iv, ib0, ib1, ib2⟩ := ih (muldbladd3 c (f a) (g a)) hb0 hb1 hb2
      (fun i hi => hf i (List.mem_cons_of_mem a hi))
      (fun i hi => hg i (List.mem_cons_of_mem a hi))
    refine ⟨?_, ib0, ib1, ib2⟩
    rw [iv, hv, Nat.mod_add_mod, Nat.add_assoc]

theorem mul_val (a b : Nat) (ha : a < 2 ^ 64) (hb : b < 2 ^ 64) :
    val3 ((mul a b).1, (mul a b).2, 0) = a * b ∧
      (mul a b).1 < 2 ^ 64 ∧ (mul a b).2 < 2 ^ 64 := by
  have hab : a * b ≤ (2 ^ 64 - 1) * (2 ^ 64 - 1) :=
    Nat.mul_le_mul (by omega) (by omega)
  simp only [mul, val3]
  generalize a * b = t at hab ⊢
  omega

theorem val3_digits (c : Nat × Nat × Nat)
    (h0 : c.1 < 2 ^ 64) (h1 : c.2.1 < 2 ^ 64) (h2 : c.2.2 < 2 ^ 64) :
    c.1 = val3 c % 2 ^ 64 ∧ c.2.1 = val3 c / 2 ^ 64 % 2 ^ 64 ∧
      c.2.2 = val3 c / 2 ^ 128 := by
  obtain ⟨c0, c1, c2⟩ := c
  dsimp only at *
  simp only [val3]
  omega

theorem mulHigh_val (x y : List Nat) (hx : wfN x) (hy : wfN y) (j : Nat) (hj : j < 47) :
    val3 (mulHigh x y j) = convAt x y (48 + j) ∧
      (mulHigh x y j).1 < 2 ^ 64 ∧ (mulHigh x y j).2.1 < 2 ^ 64 ∧
      (mulHigh x y j).2.2 < 2 ^ 64 := by
  obtain ⟨hxl, hxb⟩ := hx
  obtain ⟨hyl, hyb⟩ := hy
  have hx48 : x.length = 48 := hxl
  have hy48 : y.length = 48 := hyl
  obtain ⟨hmv, hm0, hm1⟩ := mul_val (x.getD (1 + j) 0) (y.getD (LIMBS + j - (1 + j)) 0)
    (getD_lt hxb _) (getD_lt hyb _)
  obtain ⟨hfv, hf0, hf1, hf2⟩ := foldl_muladd3 (fun i => x.getD i 0)
    (fun i => y.getD (LIMBS + j - i) 0) (List.range' (2 + j) (LIMBS - (2 + j)))
    ((mul (x.getD (1 + j) 0) (y.getD (LIMBS + j - (1 + j)) 0)).1,
      (mul (x.getD (1 + j) 0) (y.getD (LIMBS + j - (1 + j)) 0)).2, 0)
    hm0 hm1 (by norm_num) (fun i _ => getD_lt hxb i) (fun i _ => getD_lt hyb _)
  have hsum : x.getD (1 + j) 0 * y.getD (LIMBS + j - (1 + j)) 0 +
      ((List.range' (2 + j) (LIMBS - (2 + j))).map
        fun i => x.getD i 0 * y.getD (LIMBS + j - i) 0).sum = convAt x y (48 + j) := by
    rw [convAt_high x y hx48 hy48 j hj]
    simp only [LIMBS_eq]
    rw [show 48 - (2 + j) = 46 - j by omega, show 47 - j = 46 - j + 1 by omega,
      List.range'_succ, List.map_cons, List.sum_cons, show 1 + j + 1 = 2 + j by omega]
  have hlt : convAt x y (48 + j) < 2 ^ 192 :=
    lt_of_le_of_lt (convAt_le x y hx48 hxb hyb _) (by norm_num)
  refine ⟨?_, hf0, hf1, hf2⟩
  calc val3 (mulHigh x y j)
      = (val3 ((mul (x.getD (1 + j) 0) (y.getD (LIMBS + j - (1 + j)) 0)).1,
          (mul (x.getD (1 + j) 0) (y.getD (LIMBS + j - (1 + j)) 0)).2, 0) +
          ((List.range' (2 + j) (LIMBS - (2 + j))).map
            fun i => x.getD i 0 * y.getD (LIMBS + j - i) 0).sum) % 2 ^ 192 := hfv
    _ = convAt x y (48 + j) := by rw [hmv, hsum]; exact Nat.mod_eq_of_lt hlt

theorem mulStep_inv (x y : List Nat) (hx : wfN x) (hy : wfN y) (j : Nat) (hj : j < 47)
    (s : (Nat × Nat) × List Nat)
    (hlen : s.2.length = j) (hb : ∀ v ∈ s.2, v < 2 ^ 64)
    (hc0 : s.1.1 < 2 ^ 64) (hc1 : s.1.2 < 2 ^ 64)
    (hcv : val2 s.1 ≤ 2 ^ 91)
    (hval : limbsVal s.2 + 2 ^ (64 * j) * val2 s.1 =
      ((List.range j).map fun m => stepRHS x y m * 2 ^ (64 * m)).sum) :
    (mulStep x y s j).2.length = j + 1 ∧ (∀ v ∈ (mulStep x y s j).2, v < 2 ^ 64) ∧
      (mulStep x y s j).1.1 < 2 ^ 64 ∧ (mulStep x y s j).1.2 < 2 ^ 64 ∧
      val2 (mulStep x y s j).1 ≤ 2 ^ 91 ∧
      limbsVal (mulStep x y s j).2 + 2 ^ (64 * (j + 1)) * val2 (mulStep x y s j).1 =
        ((List.range (j + 1)).map fun m => stepRHS x y m * 2 ^ (64 * m)).sum := by
  obtain ⟨hxl, hxb⟩ := hx
  obtain ⟨hyl, hyb⟩ := hy
  have hx48 : x.length = 48 := hxl
  obtain ⟨hdv, hd0, hd1, hd2⟩ := mulHigh_val x y ⟨hxl, hxb⟩ ⟨hyl, hyb⟩ j hj
  have hA : convAt x y (48 + j) ≤ 48 * ((2 ^ 64 - 1) * (2 ^ 64 - 1)) :=
    convAt_le x y hx48 hxb hyb _
  have hL : convAt x y j ≤ 48 * ((2 ^ 64 - 1) * (2 ^ 64 - 1)) :=
    convAt_le x y hx48 hxb hyb _
  obtain ⟨hnv, hn0, hn1, hn2⟩ := mulnadd3_val (s.1.1, s.1.2, 0) (mulHigh x y j)
    MAX_PRIME_DIFF hc0 hc1 hd0 hd1 (by norm_num [MAX_PRIME_DIFF])
  have hfold : (mulHigh x y j).1 + 2 ^ 64 * (mulHigh x y j).2.1 +
      2 ^ 128 * (mulHigh x y j).2.2 = val3 (mulHigh x y j) := rfl
  rw [hfold, hdv] at hnv
  dsimp only at hnv
  have hnv2 : val3 (mulnadd3 (s.1.1, s.1.2, 0) (mulHigh x y j) MAX_PRIME_DIFF) =
      val2 s.1 + MAX_PRIME_DIFF * convAt x y (48 + j) := by
    rw [hnv, val2]
    rw [show MAX_PRIME_DIFF * convAt x y (48 + j) = convAt x y (48 + j) * MAX_PRIME_DIFF
      by ring]
    exact Nat.mod_eq_of_lt (by simp only [MAX_PRIME_DIFF] at *; omega)
  obtain ⟨hlv, hl0, hl1, hl2⟩ := foldl_muladd3 (fun i => x.getD i 0)
    (fun i => y.getD (j - i) 0) (List.range (j + 1))
    (mulnadd3 (s.1.1, s.1.2, 0) (mulHigh x y j) MAX_PRIME_DIFF)
    hn0 hn1 hn2 (fun i _ => getD_lt hxb i) (fun i _ => getD_lt hyb _)
  rw [hnv2, ← convAt_low x y hx48 j (by omega)] at hlv
  have hV : val3 ((List.range (j + 1)).foldl
      (fun c i => muladd3 c (x.getD i 0) (y.getD (j - i) 0))
      (mulnadd3 (s.1.1, s.1.2, 0) (mulHigh x y j) MAX_PRIME_DIFF)) =
      val2 s.1 + MAX_PRIME_DIFF * convAt x y (48 + j) + convAt x y j := by
    rw [hlv]
    exact Nat.mod_eq_of_lt (by simp only [MAX_PRIME_DIFF] at *; omega)
  set cfin := (List.range (j + 1)).foldl
    (fun c i => muladd3 c (x.getD i 0) (y.getD (j - i) 0))
    (mulnadd3 (s.1.1, s.1.2, 0) (mulHigh x y j) MAX_PRIME_DIFF) with hcfin
  set V := val2 s.1 + MAX_PRIME_DIFF * convAt x y (48 + j) + convAt x y j with hVdef
  obtain ⟨hg0, hg1, hg2⟩ := val3_digits cfin hl0 hl1 hl2
  rw [hV] at hg0 hg1 hg2
  have hstep : mulStep x y s j = ((cfin.2.1, cfin.2.2), s.2 ++ [cfin.1]) := rfl
  rw [hstep]
  dsimp only
  have hVB : V < 2 ^ 192 := by simp only [hVdef, MAX_PRIME_DIFF] at *; omega
  have hccv : val2 (cfin.2.1, cfin.2.2) = V / 2 ^ 64 := by
    rw [val2]
    dsimp only
    omega
  constructor
  · simp [hlen]
  constructor
  · intro v hv
    rcases List.mem_append.mp hv with h | h
    · exact hb v h
    · rcases List.mem_singleton.mp h with rfl; omega
  refine ⟨hl1, hl2, ?_, ?_⟩
  · rw [hccv]
    simp only [hVdef, MAX_PRIME_DIFF] at *
    omega
  · rw [limbsVal_append, hlen, hccv, List.range_succ, List.map_append, List.sum_append]
    simp only [List.map_cons, List.map_nil, List.sum_cons, List.sum_nil, Nat.add_zero]
    have hpow : 2 ^ (64 * (j + 1)) = 2 ^ (64 * j) * 2 ^ 64 := by
      rw [show 64 * (j + 1) = 64 * j + 64 by ring, pow_add]
    rw [hpow, ← hval, hg0]
    have hmain : limbsVal s.2 + 2 ^ (64 * j) * (V % 2 ^ 64) +
        2 ^ (64 * j) * 2 ^ 64 * (V / 2 ^ 64) = limbsVal s.2 + 2 ^ (64 * j) * V := by
      have h := Nat.mod_add_div V (2 ^ 64)
      calc limbsVal s.2 + 2 ^ (64 * j) * (V % 2 ^ 64) +
          2 ^ (64 * j) * 2 ^ 64 * (V / 2 ^ 64)
          = limbsVal s.2 + 2 ^ (64 * j) * (V % 2 ^ 64 + 2 ^ 64 * (V / 2 ^ 64)) := by ring
        _ = limbsVal s.2 + 2 ^ (64 * j) * V := by rw [h]
    rw [hmain, hVdef, stepRHS]
    ring

theorem sum_map_addf (f g : Nat → Nat) (l : List Nat) :
    (l.map fun i => f i + g i).sum = (l.map f).sum + (l.map g).sum := by
  induction l with
  | nil => simp
  | cons a l ih =>
    simp only [List.map_cons, List.sum_cons, ih]
    omega

theorem mulPass1_inv (x y : List Nat) (hx : wfN x) (hy : wfN y) :
    ∀ j, j ≤ 47 →
      ((List.range j).foldl (mulStep x y) ((0, 0), [])).2.length = j ∧
        (∀ v ∈ ((List.range j).foldl (mulStep x y) ((0, 0), [])).2, v < 2 ^ 64) ∧
        ((List.range j).foldl (mulStep x y) ((0, 0), [])).1.1 < 2 ^ 64 ∧
        ((List.range j).foldl (mulStep x y) ((0, 0), [])).1.2 < 2 ^ 64 ∧
        val2 ((List.range j).foldl (mulStep x y) ((0, 0), [])).1 ≤ 2 ^ 91 ∧
        limbsVal ((List.range j).foldl (mulStep x y) ((0, 0), [])).2 +
          2 ^ (64 * j) * val2 ((List.range j).foldl (mulStep x y) ((0, 0), [])).1 =
          ((List.range j).map fun m => stepRHS x y m * 2 ^ (64 * m)).sum := by
  intro j
  induction j with
  | zero =>
    intro _
    refine ⟨rfl, by simp, by norm_num, by norm_num, by norm_num [val2], ?_⟩
    simp [limbsVal, val2]
  | succ j ih =>
    intro hj
    obtain ⟨p1, p2, p3, p4, p5, p6⟩ := ih (by omega)
    rw [List.range_succ, List.foldl_append, List.foldl_cons, List.foldl_nil,
      ← List.range_succ]
    exact mulStep_inv x y hx hy j (by omega) _ p1 p2 p3 p4 p5 p6

theorem mulLast_val (x y : List Nat) (hx : wfN x) (hy : wfN y)
    (s : (Nat × Nat) × List Nat)
    (hlen : s.2.length = 47) (hb : ∀ v ∈ s.2, v < 2 ^ 64)
    (hc0 : s.1.1 < 2 ^ 64) (hc1 : s.1.2 < 2 ^ 64) (hcv : val2 s.1 ≤ 2 ^ 91) :
    (mulLast x y s).2.length = 48 ∧ (∀ v ∈ (mulLast x y s).2, v < 2 ^ 64) ∧
      (mulLast x y s).1.1 < 2 ^ 64 ∧ (mulLast x y s).1.2 < 2 ^ 64 ∧
      val2 (mulLast x y s).1 ≤ 2 ^ 71 ∧
      limbsVal (mulLast x y s).2 + 2 ^ (64 * 48) * val2 (mulLast x y s).1 =
        limbsVal s.2 + 2 ^ (64 * 47) * (val2 s.1 + convAt x y 47) := by
  obtain ⟨hxl, hxb⟩ := hx
  obtain ⟨hyl, hyb⟩ := hy
  have hx48 : x.length = 48 := hxl
  have hL : convAt x y 47 ≤ 48 * ((2 ^ 64 - 1) * (2 ^ 64 - 1)) :=
    convAt_le x y hx48 hxb hyb _
  obtain ⟨hlv, hl0, hl1, hl2⟩ := foldl_muladd3 (fun i => x.getD i 0)
    (fun i => y.getD (LIMBS - 1 - i) 0) (List.range LIMBS) (s.1.1, s.1.2, 0)
    hc0 hc1 (by norm_num) (fun i _ => getD_lt hxb i) (fun i _ => getD_lt hyb _)
  have hsum : ((List.range LIMBS).map fun i => x.getD i 0 * y.getD (LIMBS - 1 - i) 0).sum =
      convAt x y 47 := by
    rw [convAt_low x y hx48 47 (by omega)]
    simp only [LIMBS_eq, show (47 : Nat) + 1 = 48 from rfl]
  have hvs : val3 (s.1.1, s.1.2, 0) = val2 s.1 := by simp [val3, val2]
  rw [hsum, hvs] at hlv
  have hV : val3 ((List.range LIMBS).foldl
      (fun c i => muladd3 c (x.getD i 0) (y.getD (LIMBS - 1 - i) 0)) (s.1.1, s.1.2, 0)) =
      val2 s.1 + convAt x y 47 := by
    rw [hlv]
    exact Nat.mod_eq_of_lt (by omega)
  set cfin := (List.range LIMBS).foldl
    (fun c i => muladd3 c (x.getD i 0) (y.getD (LIMBS - 1 - i) 0)) (s.1.1, s.1.2, 0) with hcfin
  set V := val2 s.1 + convAt x y 47 with hVdef
  obtain ⟨hg0, hg1, hg2⟩ := val3_digits cfin hl0 hl1 hl2
  rw [hV] at hg0 hg1 hg2
  have hVB : V < 2 ^ 192 := by omega
  have hstep : mulLast x y s = ((cfin.2.1, cfin.2.2), s.2 ++ [cfin.1]) := rfl
  rw [hstep]
  dsimp only
  have hccv : val2 (cfin.2.1, cfin.2.2) = V / 2 ^ 64 := by
    rw [val2]
    dsimp only
    omega
  constructor
  · simp [hlen]
  constructor
  · intro v hv
    rcases List.mem_append.mp hv with h | h
    · exact hb v h
    · rcases List.mem_singleton.mp h with rfl; omega
  refine ⟨hl1, hl2, ?_, ?_⟩
  · rw [hccv]; omega
  · rw [limbsVal_append, hlen, hccv, hg0]
    have h := Nat.mod_add_div V (2 ^ 64)
    have hpow : 2 ^ (64 * 48) = 2 ^ (64 * 47) * 2 ^ 64 := by norm_num
    rw [hpow]
    calc limbsVal s.2 + 2 ^ (64 * 47) * (V % 2 ^ 64) +
        2 ^ (64 * 47) * 2 ^ 64 * (V / 2 ^ 64)
        = limbsVal s.2 + 2 ^ (64 * 47) * (V % 2 ^ 64 + 2 ^ 64 * (V / 2 ^ 64)) := by ring
      _ = limbsVal s.2 + 2 ^ (64 * 47) * V := by rw [h]

theorem muln2_exact (c : Nat × Nat) (n : Nat)
    (h0 : c.1 < 2 ^ 64) (h1 : c.2 < 2 ^ 64) (hn : n < 2 ^ 64)
    (hlt : val2 c * n < 2 ^ 128) :
    val2 (muln2 c n) = val2 c * n ∧ (muln2 c n).1 < 2 ^ 64 ∧ (muln2 c n).2 < 2 ^ 64 := by
  obtain ⟨hv, hb0, hb1⟩ := muln2_val c n h0 h1 hn
  exact ⟨by rw [hv]; exact Nat.mod_eq_of_lt hlt, hb0, hb1⟩

theorem mulPass2_val (l : List Nat) : ∀ cc : Nat × Nat, cc.1 < 2 ^ 64 → cc.2 + 1 < 2 ^ 64 →
    (∀ v ∈ l, v < 2 ^ 64) →
    (limbsVal (mulPass2 cc l).1 + 2 ^ (64 * l.length) * val2 (mulPass2 cc l).2 =
      val2 cc + limbsVal l) ∧
      (∀ v ∈ (mulPass2 cc l).1, v < 2 ^ 64) ∧ (mulPass2 cc l).1.length = l.length ∧
      (mulPass2 cc l).2.1 < 2 ^ 64 ∧ (l = [] → (mulPass2 cc l).2 = cc) ∧
      (l ≠ [] → (mulPass2 cc l).2.2 = 0) := by
  induction l with
  | nil =>
    intro cc h0 h1 _
    refine ⟨?_, by simp [mulPass2], by simp [mulPass2],
      by simp only [mulPass2]; exact h0, fun _ => rfl, fun h => absurd rfl h⟩
    simp [mulPass2, limbsVal]
  | cons t ts ih =>
    intro cc h0 h1 hl
    have ht : t < 2 ^ 64 := hl t (List.mem_cons_self _ _)
    obtain ⟨hs, hs0, hs1⟩ := add2_val cc t h0 (by omega) ht
    have hsx : val2 (add2 cc t) = val2 cc + t := by
      rw [hs]
      exact Nat.mod_eq_of_lt (by simp only [val2] at *; omega)
    obtain ⟨iv, ib, il, ic, _, inn⟩ := ih ((add2 cc t).2, 0) hs1 (by norm_num)
      (fun v hv => hl v (List.mem_cons_of_mem t hv))
    have hm : mulPass2 cc (t :: ts) =
        ((add2 cc t).1 :: (mulPass2 ((add2 cc t).2, 0) ts).1,
          (mulPass2 ((add2 cc t).2, 0) ts).2) := rfl
    rw [hm]
    dsimp only
    constructor
    · have e1 : limbsVal ((add2 cc t).1 :: (mulPass2 ((add2 cc t).2, 0) ts).1) =
          (add2 cc t).1 + 2 ^ 64 * limbsVal (mulPass2 ((add2 cc t).2, 0) ts).1 := rfl
      rw [e1, List.length_cons,
        show 64 * (ts.length + 1) = 64 + 64 * ts.length by ring, pow_add]
      have e2 : val2 ((add2 cc t).2, 0) = (add2 cc t).2 := by simp [val2]
      have e3 : limbsVal (t :: ts) = t + 2 ^ 64 * limbsVal ts := rfl
      rw [e3]
      have e4 := iv
      rw [e2] at e4
      calc (add2 cc t).1 + 2 ^ 64 * limbsVal (mulPass2 ((add2 cc t).2, 0) ts).1 +
          2 ^ 64 * 2 ^ (64 * ts.length) * val2 (mulPass2 ((add2 cc t).2, 0) ts).2
          = (add2 cc t).1 + 2 ^ 64 * (limbsVal (mulPass2 ((add2 cc t).2, 0) ts).1 +
            2 ^ (64 * ts.length) * val2 (mulPass2 ((add2 cc t).2, 0) ts).2) := by ring
        _ = (add2 cc t).1 + 2 ^ 64 * ((add2 cc t).2 + limbsVal ts) := by rw [e4]
        _ = val2 (add2 cc t) + 2 ^ 64 * limbsVal ts := by rw [val2]; ring
        _ = val2 cc + (t + 2 ^ 64 * limbsVal ts) := by rw [hsx]; ring
    refine ⟨?_, by simp [il], ic, fun h => absurd h (by simp), fun _ => ?_⟩
    · intro v hv
      rcases List.mem_cons.mp hv with rfl | hv
      · exact hs0
      · exact ib v hv
    · cases ts with
      | nil =>
        have : mulPass2 ((add2 cc t).2, 0) [] = ([], ((add2 cc t).2, 0)) := rfl
        rw [this]
      | cons u us => exact inn (by simp)

theorem mod_shift (u w M : Nat) (hu : u < 2 ^ 64) (hM : 0 < M) :
    u + 2 ^ 64 * (w % M) = (u + 2 ^ 64 * w) % (2 ^ 64 * M) := by
  conv_rhs => rw [← Nat.mod_add_div w M]
  have e1 : u + 2 ^ 64 * (w % M + M * (w / M)) =
      u + 2 ^ 64 * (w % M) + 2 ^ 64 * M * (w / M) := by ring
  rw [e1, Nat.add_mul_mod_self_left]
  have h1 : w % M < M := Nat.mod_lt w hM
  have h2 : 2 ^ 64 * (w % M) + 2 ^ 64 ≤ 2 ^ 64 * M := by
    calc 2 ^ 64 * (w % M) + 2 ^ 64 = 2 ^ 64 * (w % M + 1) := by ring
      _ ≤ 2 ^ 64 * M := Nat.mul_le_mul_left _ (by omega)
  exact (Nat.mod_eq_of_lt (by omega)).symm

theorem fullReduceGo_val (l : List Nat) : ∀ c0 : Nat, c0 < 2 ^ 64 → (∀ v ∈ l, v < 2 ^ 64) →
    limbsVal (FullReduceGo c0 l) = (c0 + limbsVal l) % 2 ^ (64 * l.length) ∧
      (∀ v ∈ FullReduceGo c0 l, v < 2 ^ 64) ∧ (FullReduceGo c0 l).length = l.length := by
  induction l with
  | nil =>
    intro c0 _ _
    refine ⟨?_, by simp [FullReduceGo], rfl⟩
    simp [FullReduceGo, limbsVal, Nat.mod_one]
  | cons d ds ih =>
    intro c0 h0 hl
    obtain ⟨hs, hs0, hs1⟩ := add2_val (c0, 0) d h0 (by norm_num) (hl d (List.mem_cons_self _ _))
    have hsx : val2 (add2 (c0, 0) d) = c0 + d := by
      rw [hs]
      have : val2 (c0, 0) = c0 := by simp [val2]
      rw [this]
      exact Nat.mod_eq_of_lt (by have := hl d (List.mem_cons_self _ _); omega)
    have hs2 : (add2 (c0, 0) d).2 < 2 ^ 64 := hs1
    obtain ⟨iv, ib, il⟩ := ih (add2 (c0, 0) d).2 hs2
      (fun v hv => hl v (List.mem_cons_of_mem d hv))
    have hm : FullReduceGo c0 (d :: ds) =
        (add2 (c0, 0) d).1 :: FullReduceGo (add2 (c0, 0) d).2 ds := rfl
    rw [hm]
    refine ⟨?_, ?_, by simp [il]⟩
    · have e1 : limbsVal ((add2 (c0, 0) d).1 :: FullReduceGo (add2 (c0, 0) d).2 ds) =
          (add2 (c0, 0) d).1 + 2 ^ 64 * limbsVal (FullReduceGo (add2 (c0, 0) d).2 ds) := rfl
      have e3 : limbsVal (d :: ds) = d + 2 ^ 64 * limbsVal ds := rfl
      rw [e1, iv, e3, List.length_cons,
        show 64 * (ds.length + 1) = 64 + 64 * ds.length by ring, pow_add]
      rw [mod_shift _ _ _ hs0 (Nat.pos_pow_of_pos _ (by norm_num))]
      have e4 : (add2 (c0, 0) d).1 + 2 ^ 64 * ((add2 (c0, 0) d).2 + limbsVal ds) =
          val2 (add2 (c0, 0) d) + 2 ^ 64 * limbsVal ds := by rw [val2]; ring
      have e5 : c0 + (d + 2 ^ 64 * limbsVal ds) = c0 + d + 2 ^ 64 * limbsVal ds := by ring
      rw [e4, hsx, e5]
    · intro v hv
      rcases List.mem_cons.mp hv with rfl | hv
      · exact hs0
      · exact ib v hv

theorem FullReduce_val (d : List Nat) (hw : wfN d) :
    limbsVal (FullReduce d) = (limbsVal d + MAX_PRIME_DIFF) % 2 ^ 3072 ∧
      wfN (FullReduce d) := by
  obtain ⟨hl, hb⟩ := hw
  have hl48 : d.length = 48 := hl
  obtain ⟨hv, hb2, hl2⟩ := fullReduceGo_val d MAX_PRIME_DIFF (by norm_num [MAX_PRIME_DIFF]) hb
  refine ⟨?_, ?_⟩
  · rw [FullReduce, hv, hl48, show (64 * 48 : Nat) = 3072 by norm_num, Nat.add_comm]
  · exact ⟨by rw [FullReduce, hl2]; exact hl, hb2⟩

theorem base_modeq : (2 : Nat) ^ 3072 ≡ MAX_PRIME_DIFF [MOD P] := by
  have h : (2 : Nat) ^ 3072 = P + MAX_PRIME_DIFF := by norm_num [P, MAX_PRIME_DIFF]
  rw [Nat.ModEq, h, Nat.add_mod_left]

theorem multiplyCore_val (x y : List Nat) (hx : wfN x) (hy : wfN y) :
    (multiplyCore x y).1.length = 48 ∧ (∀ v ∈ (multiplyCore x y).1, v < 2 ^ 64) ∧
      (multiplyCore x y).2.2 = 0 ∧ (multiplyCore x y).2.1 ≤ 1 ∧
      limbsVal (multiplyCore x y).1 + 2 ^ 3072 * (multiplyCore x y).2.1 ≡
        limbsVal x * limbsVal y [MOD P] ∧
      ((multiplyCore x y).2.1 = 1 → limbsVal (multiplyCore x y).1 < 2 ^ 92) := by
  obtain ⟨p1, p2, p3, p4, p5, p6⟩ := mulPass1_inv x y hx hy 47 (Nat.le_refl _)
  obtain ⟨q1, q2, q3, q4, q5, q6⟩ := mulLast_val x y hx hy _ p1 p2 p3 p4 p5
  set S := (List.range 47).foldl (mulStep x y) ((0, 0), []) with hS
  set pl := mulLast x y S with hpl
  set LO := ((List.range 48).map fun m => convAt x y m * 2 ^ (64 * m)).sum with hLO
  set HI := ((List.range 47).map fun m => convAt x y (48 + m) * 2 ^ (64 * m)).sum with hHI
  have hR : ((List.range 47).map fun m => stepRHS x y m * 2 ^ (64 * m)).sum =
      ((List.range 47).map fun m => convAt x y m * 2 ^ (64 * m)).sum +
        MAX_PRIME_DIFF * HI := by
    have h1 : ((List.range 47).map fun m => stepRHS x y m * 2 ^ (64 * m)).sum =
        ((List.range 47).map fun m => convAt x y m * 2 ^ (64 * m) +
          MAX_PRIME_DIFF * (convAt x y (48 + m) * 2 ^ (64 * m))).sum :=
      sum_map_congr fun m _ => by rw [stepRHS]; ring
    rw [h1, sum_map_addf, sum_map_mul_left]
  have hLO47 : LO = ((List.range 47).map fun m => convAt x y m * 2 ^ (64 * m)).sum +
      convAt x y 47 * 2 ^ (64 * 47) := by
    rw [hLO, show (48 : Nat) = 47 + 1 from rfl, List.range_succ, List.map_append,
      List.sum_append]
    simp
  have E2 : limbsVal pl.2 + 2 ^ (64 * 48) * val2 pl.1 = LO + MAX_PRIME_DIFF * HI := by
    calc limbsVal pl.2 + 2 ^ (64 * 48) * val2 pl.1
        = limbsVal S.2 + 2 ^ (64 * 47) * (val2 S.1 + convAt x y 47) := q6
      _ = limbsVal S.2 + 2 ^ (64 * 47) * val2 S.1 + convAt x y 47 * 2 ^ (64 * 47) := by ring
      _ = ((List.range 47).map fun m => stepRHS x y m * 2 ^ (64 * m)).sum +
          convAt x y 47 * 2 ^ (64 * 47) := by rw [p6]
      _ = LO + MAX_PRIME_DIFF * HI := by rw [hR, hLO47]; ring
  have hprod : val2 pl.1 * MAX_PRIME_DIFF ≤ 2 ^ 71 * 1103717 :=
    Nat.mul_le_mul q5 (Nat.le_of_eq rfl)
  obtain ⟨hm2v, hm2a, hm2b⟩ := muln2_exact pl.1 MAX_PRIME_DIFF q3 q4
    (by norm_num [MAX_PRIME_DIFF])
    (lt_of_le_of_lt hprod (by norm_num))
  have hm2c : (muln2 pl.1 MAX_PRIME_DIFF).2 + 1 < 2 ^ 64 := by
    have h1 : (muln2 pl.1 MAX_PRIME_DIFF).1 + 2 ^ 64 * (muln2 pl.1 MAX_PRIME_DIFF).2 =
        val2 pl.1 * MAX_PRIME_DIFF := hm2v
    omega
  obtain ⟨w1, w2, w3, w4, _, w6⟩ := mulPass2_val pl.2 (muln2 pl.1 MAX_PRIME_DIFF) hm2a hm2c q2
  have hne : pl.2 ≠ [] := by
    intro hh
    have hlz : pl.2.length = 0 := by rw [hh]; rfl
    omega
  have hcore : multiplyCore x y = mulPass2 (muln2 pl.1 MAX_PRIME_DIFF) pl.2 := rfl
  rw [hcore]
  have hz : (mulPass2 (muln2 pl.1 MAX_PRIME_DIFF) pl.2).2.2 = 0 := w6 hne
  have hccf : val2 (mulPass2 (muln2 pl.1 MAX_PRIME_DIFF) pl.2).2 =
      (mulPass2 (muln2 pl.1 MAX_PRIME_DIFF) pl.2).2.1 := by
    rw [val2, hz]
    ring
  have htmplt : limbsVal pl.2 < 2 ^ 3072 := by
    have h := limbsVal_lt q2
    rw [q1] at h
    exact lt_of_lt_of_le h (by norm_num)
  have E1 : limbsVal (mulPass2 (muln2 pl.1 MAX_PRIME_DIFF) pl.2).1 +
      2 ^ 3072 * (mulPass2 (muln2 pl.1 MAX_PRIME_DIFF) pl.2).2.1 =
      val2 pl.1 * MAX_PRIME_DIFF + limbsVal pl.2 := by
    have h := w1
    rw [hccf, hm2v, q1, show (2 : Nat) ^ (64 * 48) = 2 ^ 3072 by norm_num] at h
    exact h
  have hKle : (mulPass2 (muln2 pl.1 MAX_PRIME_DIFF) pl.2).2.1 ≤ 1 := by
    omega
  refine ⟨by rw [w3, q1], w2, hz, hKle, ?_, ?_⟩
  · have s1 : val2 pl.1 * MAX_PRIME_DIFF + limbsVal pl.2 ≡
        val2 pl.1 * 2 ^ 3072 + limbsVal pl.2 [MOD P] :=
      Nat.ModEq.add_right _ (Nat.ModEq.mul_left (val2 pl.1) base_modeq.symm)
    have s2 : val2 pl.1 * 2 ^ 3072 + limbsVal pl.2 = LO + MAX_PRIME_DIFF * HI := by
      rw [← E2, show (2 : Nat) ^ (64 * 48) = 2 ^ 3072 by norm_num]
      ring
    have s3 : LO + MAX_PRIME_DIFF * HI ≡ LO + 2 ^ 3072 * HI [MOD P] :=
      Nat.ModEq.add_left LO (Nat.ModEq.mul_right HI base_modeq.symm)
    have s4 : LO + 2 ^ 3072 * HI = limbsVal x * limbsVal y :=
      (val_mul_split x y hx hy).symm
    rw [E1]
    have s12 : val2 pl.1 * MAX_PRIME_DIFF + limbsVal pl.2 ≡
        LO + MAX_PRIME_DIFF * HI [MOD P] := by
      rw [← s2]; exact s1
    have s34 : LO + MAX_PRIME_DIFF * HI ≡ limbsVal x * limbsVal y [MOD P] := by
      rw [← s4]; exact s3
    exact s12.trans s34
  · intro h1
    rw [h1, Nat.mul_one] at E1
    omega

theorem Multiply_val (x y : List Nat) (hx : wfN x) (hy : wfN y) :
    wfN (Multiply x y) ∧ limbsVal (Multiply x y) ≡ limbsVal x * limbsVal y [MOD P] := by
  obtain ⟨clen, cb, _, cle, cmod, csmall⟩ := multiplyCore_val x y hx hy
  have hM : Multiply x y = if (multiplyCore x y).2.1 ≠ 0 then
      FullReduce (multiplyCore x y).1 else (multiplyCore x y).1 := rfl
  by_cases h : (multiplyCore x y).2.1 = 0
  · rw [hM, if_neg (fun hc => hc h)]
    refine ⟨⟨clen, cb⟩, ?_⟩
    have := cmod
    rw [h] at this
    simpa using this
  · have h1 : (multiplyCore x y).2.1 = 1 := by omega
    rw [hM, if_pos h]
    obtain ⟨fv, fw⟩ := FullReduce_val (multiplyCore x y).1 ⟨clen, cb⟩
    refine ⟨fw, ?_⟩
    rw [fv]
    have hsm := csmall h1
    have hex : (limbsVal (multiplyCore x y).1 + MAX_PRIME_DIFF) % 2 ^ 3072 =
        limbsVal (multiplyCore x y).1 + MAX_PRIME_DIFF :=
      Nat.mod_eq_of_lt (by
        have hC : MAX_PRIME_DIFF ≤ 2 ^ 21 := by norm_num [MAX_PRIME_DIFF]
        omega)
    rw [hex]
    have s1 : limbsVal (multiplyCore x y).1 + MAX_PRIME_DIFF ≡
        limbsVal (multiplyCore x y).1 + 2 ^ 3072 [MOD P] :=
      Nat.ModEq.add_left _ base_modeq.symm
    have s2 := cmod
    rw [h1, Nat.mul_one] at s2
    exact s1.trans s2

theorem triple_eq_of_val3 (c d : Nat × Nat × Nat)
    (hc0 : c.1 < 2 ^ 64) (hc1 : c.2.1 < 2 ^ 64) (hc2 : c.2.2 < 2 ^ 64)
    (hd0 : d.1 < 2 ^ 64) (hd1 : d.2.1 < 2 ^ 64) (hd2 : d.2.2 < 2 ^ 64)
    (h : val3 c = val3 d) : c = d := by
  obtain ⟨a0, a1, a2⟩ := c
  obtain ⟨b0, b1, b2⟩ := d
  dsimp only at *
  simp only [val3] at h
  simp only [Prod.mk.injEq]
  refine ⟨?_, ?_, ?_⟩ <;> omega

theorem pairSum (g : Nat → Nat) : ∀ n lo,
    ((List.range' lo n).map fun i => g i * g (2 * lo + n - 1 - i)).sum =
      2 * ((List.range (n / 2)).map fun i => g (lo + i) * g (lo + n - 1 - i)).sum +
        (if n % 2 = 1 then g (lo + n / 2) * g (lo + n / 2) else 0) := by
  intro n
  induction n using Nat.strong_induction_on with
  | _ n ih =>
    match n with
    | 0 => intro lo; simp
    | 1 =>
      intro lo
      simp only [List.range'_succ, List.range'_zero, List.map_cons, List.map_nil,
        List.sum_cons, List.sum_nil]
      rw [show 2 * lo + 1 - 1 - lo = lo by omega]
      norm_num
    | (m + 2) =>
      intro lo
      rw [List.range'_succ, List.map_cons, List.sum_cons,
        List.range'_concat, List.map_append, List.sum_append]
      simp only [List.map_cons, List.map_nil, List.sum_cons, List.sum_nil, Nat.add_zero]
      have hmid : ((List.range' (lo + 1) m).map
          fun i => g i * g (2 * lo + (m + 2) - 1 - i)).sum =
          ((List.range' (lo + 1) m).map
          fun i => g i * g (2 * (lo + 1) + m - 1 - i)).sum :=
        sum_map_congr fun i _ => by
          rw [show 2 * lo + (m + 2) - 1 - i = 2 * (lo + 1) + m - 1 - i by omega]
      rw [hmid, ih m (by omega) (lo + 1)]
      rw [show 2 * lo + (m + 2) - 1 - lo = lo + m + 1 by omega,
        show 2 * lo + (m + 2) - 1 - (lo + 1 + 1 * m) = lo by omega,
        show lo + 1 + 1 * m = lo + m + 1 by omega,
        show (m + 2) / 2 = m / 2 + 1 by omega]
      simp only [sum_map_range_succ_shift, Nat.add_zero, Nat.sub_zero]
      rw [show lo + (m + 2) - 1 = lo + m + 1 by omega]
      have e10 : ((List.range (m / 2)).map
          fun i => g (lo + (i + 1)) * g (lo + m + 1 - (i + 1))).sum =
          ((List.range (m / 2)).map
          fun i => g (lo + 1 + i) * g (lo + 1 + m - 1 - i)).sum :=
        sum_map_congr fun i _ => by
          rw [show lo + (i + 1) = lo + 1 + i by omega,
            show lo + m + 1 - (i + 1) = lo + 1 + m - 1 - i by omega]
      rw [e10, show (m + 2) % 2 = m % 2 by omega,
        show lo + (m / 2 + 1) = lo + 1 + m / 2 by omega]
      ring

theorem sqrHigh_val (x : List Nat) (hx : wfN x) (j : Nat) (hj : j < 47) :
    val3 (sqrHigh x j) = convAt x x (48 + j) ∧
      (sqrHigh x j).1 < 2 ^ 64 ∧ (sqrHigh x j).2.1 < 2 ^ 64 ∧ (sqrHigh x j).2.2 < 2 ^ 64 := by
  obtain ⟨hxl, hxb⟩ := hx
  have hx48 : x.length = 48 := hxl
  obtain ⟨hfv, hf0, hf1, hf2⟩ := foldl_muldbladd3 (fun i => x.getD (i + j + 1) 0)
    (fun i => x.getD (LIMBS - 1 - i) 0) (List.range ((LIMBS - 1 - j) / 2)) (0, 0, 0)
    (by norm_num) (by norm_num) (by norm_num)
    (fun i _ => getD_lt hxb _) (fun i _ => getD_lt hxb _)
  have hz : val3 (0, 0, 0) = 0 := rfl
  rw [hz, Nat.zero_add] at hfv
  have hdbl : ((List.range ((LIMBS - 1 - j) / 2)).map
      fun i => 2 * (x.getD (i + j + 1) 0 * x.getD (LIMBS - 1 - i) 0)).sum =
      2 * ((List.range ((47 - j) / 2)).map
      fun i => x.getD (j + 1 + i) 0 * x.getD (j + 1 + (47 - j) - 1 - i) 0).sum := by
    rw [sum_map_mul_left 2 (fun i => x.getD (i + j + 1) 0 * x.getD (LIMBS - 1 - i) 0)]
    rw [show LIMBS - 1 - j = 47 - j from by simp only [LIMBS_eq]]
    refine congrArg (2 * ·) (sum_map_congr fun i _ => ?_)
    rw [show i + j + 1 = j + 1 + i by omega,
      show LIMBS - 1 - i = j + 1 + (47 - j) - 1 - i from by simp only [LIMBS_eq]; omega]
  have hconv : convAt x x (48 + j) =
      2 * ((List.range ((47 - j) / 2)).map
        fun i => x.getD (j + 1 + i) 0 * x.getD (j + 1 + (47 - j) - 1 - i) 0).sum +
        (if (47 - j) % 2 = 1 then
          x.getD (j + 1 + (47 - j) / 2) 0 * x.getD (j + 1 + (47 - j) / 2) 0 else 0) := by
    rw [convAt_high x x hx48 hx48 j hj, show 1 + j = j + 1 by omega]
    have e1 : ((List.range' (j + 1) (47 - j)).map
        fun i => x.getD i 0 * x.getD (48 + j - i) 0).sum =
        ((List.range' (j + 1) (47 - j)).map
        fun i => x.getD i 0 * x.getD (2 * (j + 1) + (47 - j) - 1 - i) 0).sum :=
      sum_map_congr fun i _ => by
        rw [show 48 + j - i = 2 * (j + 1) + (47 - j) - 1 - i by omega]
    rw [e1, pairSum (fun i => x.getD i 0) (47 - j) (j + 1)]
  have hlt : convAt x x (48 + j) < 2 ^ 192 :=
    lt_of_le_of_lt (convAt_le x x hx48 hxb hxb _) (by norm_num)
  have hpar : ((j + 1) % 2 = 1) ↔ ((47 - j) % 2 = 1) := by omega
  by_cases hp : (j + 1) % 2 = 1
  · have hs : sqrHigh x j = muladd3 ((List.range ((LIMBS - 1 - j) / 2)).foldl
        (fun d i => muldbladd3 d (x.getD (i + j + 1) 0) (x.getD (LIMBS - 1 - i) 0)) (0, 0, 0))
        (x.getD ((LIMBS - 1 - j) / 2 + j + 1) 0)
        (x.getD (LIMBS - 1 - (LIMBS - 1 - j) / 2) 0) := by
      rw [sqrHigh, if_pos hp]
    rw [hs]
    obtain ⟨hmv, hm0, hm1, hm2⟩ := muladd3_val _ (x.getD ((LIMBS - 1 - j) / 2 + j + 1) 0)
      (x.getD (LIMBS - 1 - (LIMBS - 1 - j) / 2) 0) hf0 hf1 hf2
      (getD_lt hxb _) (getD_lt hxb _)
    refine ⟨?_, hm0, hm1, hm2⟩
    have hodd : (47 - j) % 2 = 1 := hpar.mp hp
    have hi1 : (LIMBS - 1 - j) / 2 + j + 1 = j + 1 + (47 - j) / 2 := by
      simp only [LIMBS_eq]; omega
    have hi2 : LIMBS - 1 - (LIMBS - 1 - j) / 2 = j + 1 + (47 - j) / 2 := by
      simp only [LIMBS_eq]; omega
    rw [hmv, hfv, Nat.mod_add_mod, hdbl, hi1, hi2]
    have hcv2 := hconv
    rw [if_pos hodd] at hcv2
    rw [← hcv2]
    exact Nat.mod_eq_of_lt hlt
  · have hs : sqrHigh x j = (List.range ((LIMBS - 1 - j) / 2)).foldl
        (fun d i => muldbladd3 d (x.getD (i + j + 1) 0) (x.getD (LIMBS - 1 - i) 0)) (0, 0, 0) := by
      rw [sqrHigh, if_neg hp]
    rw [hs]
    refine ⟨?_, hf0, hf1, hf2⟩
    rw [hfv, hdbl]
    have heven : ¬ (47 - j) % 2 = 1 := fun h => hp (hpar.mpr h)
    have hcv2 := hconv
    rw [if_neg heven, Nat.add_zero] at hcv2
    rw [← hcv2]
    exact Nat.mod_eq_of_lt hlt

theorem sqrHigh_eq (x : List Nat) (hx : wfN x) (j : Nat) (hj : j < 47) :
    sqrHigh x j = mulHigh x x j := by
  obtain ⟨h1, b1, b2, b3⟩ := sqrHigh_val x hx j hj
  obtain ⟨h2, c1, c2, c3⟩ := mulHigh_val x x hx hx j hj
  exact triple_eq_of_val3 _ _ b1 b2 b3 c1 c2 c3 (by rw [h1, h2])

theorem sqrStep_eq (x : List Nat) (hx : wfN x) (j : Nat) (hj : j < 47)
    (s : (Nat × Nat) × List Nat) (hc0 : s.1.1 < 2 ^ 64) (hc1 : s.1.2 < 2 ^ 64) :
    sqrStep x s j = mulStep x x s j := by
  obtain ⟨hxl, hxb⟩ := hx
  have hdeq := sqrHigh_eq x ⟨hxl, hxb⟩ j hj
  obtain ⟨hdv, hd0, hd1, hd2⟩ := mulHigh_val x x ⟨hxl, hxb⟩ ⟨hxl, hxb⟩ j hj
  obtain ⟨hnv, hn0, hn1, hn2⟩ := mulnadd3_val (s.1.1, s.1.2, 0) (mulHigh x x j)
    MAX_PRIME_DIFF hc0 hc1 hd0 hd1 (by norm_num [MAX_PRIME_DIFF])
  obtain ⟨hMv, hM0, hM1, hM2⟩ := foldl_muladd3 (fun i => x.getD i 0)
    (fun i => x.getD (j - i) 0) (List.range (j + 1))
    (mulnadd3 (s.1.1, s.1.2, 0) (mulHigh x x j) MAX_PRIME_DIFF) hn0 hn1 hn2
    (fun i _ => getD_lt hxb i) (fun i _ => getD_lt hxb _)
  obtain ⟨hSv, hS0, hS1, hS2⟩ := foldl_muldbladd3 (fun i => x.getD i 0)
    (fun i => x.getD (j - i) 0) (List.range ((j + 1) / 2))
    (mulnadd3 (s.1.1, s.1.2, 0) (mulHigh x x j) MAX_PRIME_DIFF) hn0 hn1 hn2
    (fun i _ => getD_lt hxb i) (fun i _ => getD_lt hxb _)
  have hpair := pairSum (fun i => x.getD i 0) (j + 1) 0
  have hL : ((List.range' 0 (j + 1)).map
      fun i => x.getD i 0 * x.getD (2 * 0 + (j + 1) - 1 - i) 0).sum =
      ((List.range (j + 1)).map fun i => x.getD i 0 * x.getD (j - i) 0).sum := by
    rw [← List.range_eq_range']
    exact sum_map_congr fun i _ => by rw [show 2 * 0 + (j + 1) - 1 - i = j - i by omega]
  have hR : ((List.range ((j + 1) / 2)).map
      fun i => x.getD (0 + i) 0 * x.getD (0 + (j + 1) - 1 - i) 0).sum =
      ((List.range ((j + 1) / 2)).map fun i => x.getD i 0 * x.getD (j - i) 0).sum :=
    sum_map_congr fun i _ => by
      rw [show 0 + i = i by omega, show 0 + (j + 1) - 1 - i = j - i by omega]
  rw [hL, hR] at hpair
  have hdblsum : ((List.range ((j + 1) / 2)).map
      fun i => 2 * (x.getD i 0 * x.getD (j - i) 0)).sum =
      2 * ((List.range ((j + 1) / 2)).map fun i => x.getD i 0 * x.getD (j - i) 0).sum :=
    sum_map_mul_left 2 (fun i => x.getD i 0 * x.getD (j - i) 0) (List.range ((j + 1) / 2))
  have e : (if (j + 1) % 2 = 1 then
      muladd3 ((List.range ((j + 1) / 2)).foldl
        (fun c i => muldbladd3 c (x.getD i 0) (x.getD (j - i) 0))
        (mulnadd3 (s.1.1, s.1.2, 0) (mulHigh x x j) MAX_PRIME_DIFF))
        (x.getD ((j + 1) / 2) 0) (x.getD (j - (j + 1) / 2) 0)
      else (List.range ((j + 1) / 2)).foldl
        (fun c i => muldbladd3 c (x.getD i 0) (x.getD (j - i) 0))
        (mulnadd3 (s.1.1, s.1.2, 0) (mulHigh x x j) MAX_PRIME_DIFF)) =
      (List.range (j + 1)).foldl (fun c i => muladd3 c (x.getD i 0) (x.getD (j - i) 0))
        (mulnadd3 (s.1.1, s.1.2, 0) (mulHigh x x j) MAX_PRIME_DIFF) := by
    by_cases hp : (j + 1) % 2 = 1
    · rw [if_pos hp]
      obtain ⟨hav, ha0, ha1, ha2⟩ := muladd3_val _ (x.getD ((j + 1) / 2) 0)
        (x.getD (j - (j + 1) / 2) 0) hS0 hS1 hS2 (getD_lt hxb _) (getD_lt hxb _)
      refine triple_eq_of_val3 _ _ ha0 ha1 ha2 hM0 hM1 hM2 ?_
      rw [hav, hSv, hMv, Nat.mod_add_mod, hdblsum, hpair, if_pos hp]
      rw [show 0 + (j + 1) / 2 = (j + 1) / 2 by omega,
        show j - (j + 1) / 2 = (j + 1) / 2 by omega, Nat.add_assoc]
    · rw [if_neg hp]
      refine triple_eq_of_val3 _ _ hS0 hS1 hS2 hM0 hM1 hM2 ?_
      rw [hSv, hMv, hdblsum, hpair, if_neg hp]
      omega
  simp only [sqrStep, mulStep]
  rw [hdeq, e]

theorem sqrLast_eq (x : List Nat) (hx : wfN x) (s : (Nat × Nat) × List Nat)
    (hc0 : s.1.1 < 2 ^ 64) (hc1 : s.1.2 < 2 ^ 64) :
    sqrLast x s = mulLast x x s := by
  obtain ⟨hxl, hxb⟩ := hx
  obtain ⟨hMv, hM0, hM1, hM2⟩ := foldl_muladd3 (fun i => x.getD i 0)
    (fun i => x.getD (LIMBS - 1 - i) 0) (List.range LIMBS) (s.1.1, s.1.2, 0)
    hc0 hc1 (by norm_num) (fun i _ => getD_lt hxb i) (fun i _ => getD_lt hxb _)
  obtain ⟨hSv, hS0, hS1, hS2⟩ := foldl_muldbladd3 (fun i => x.getD i 0)
    (fun i => x.getD (LIMBS - 1 - i) 0) (List.range (LIMBS / 2)) (s.1.1, s.1.2, 0)
    hc0 hc1 (by norm_num) (fun i _ => getD_lt hxb i) (fun i _ => getD_lt hxb _)
  have hpair := pairSum (fun i => x.getD i 0) 48 0
  have hL : ((List.range' 0 48).map
      fun i => x.getD i 0 * x.getD (2 * 0 + 48 - 1 - i) 0).sum =
      ((List.range LIMBS).map fun i => x.getD i 0 * x.getD (LIMBS - 1 - i) 0).sum := by
    rw [← List.range_eq_range', show List.range 48 = List.range LIMBS from rfl]
    exact sum_map_congr fun i _ => by
      rw [show 2 * 0 + 48 - 1 - i = LIMBS - 1 - i from by simp only [LIMBS_eq]]
  have hR : ((List.range (48 / 2)).map
      fun i => x.getD (0 + i) 0 * x.getD (0 + 48 - 1 - i) 0).sum =
      ((List.range (LIMBS / 2)).map fun i => x.getD i 0 * x.getD (LIMBS - 1 - i) 0).sum := by
    rw [show (48 : Nat) / 2 = LIMBS / 2 from rfl]
    exact sum_map_congr fun i _ => by
      rw [show 0 + i = i by omega,
        show 0 + 48 - 1 - i = LIMBS - 1 - i from by simp only [LIMBS_eq]]
  rw [hL, hR, if_neg (by norm_num), Nat.add_zero] at hpair
  have hdblsum : ((List.range (LIMBS / 2)).map
      fun i => 2 * (x.getD i 0 * x.getD (LIMBS - 1 - i) 0)).sum =
      2 * ((List.range (LIMBS / 2)).map fun i => x.getD i 0 * x.getD (LIMBS - 1 - i) 0).sum :=
    sum_map_mul_left 2 (fun i => x.getD i 0 * x.getD (LIMBS - 1 - i) 0) (List.range (LIMBS / 2))
  have e : (List.range (LIMBS / 2)).foldl
      (fun c i => muldbladd3 c (x.getD i 0) (x.getD (LIMBS - 1 - i) 0)) (s.1.1, s.1.2, 0) =
      (List.range LIMBS).foldl
      (fun c i => muladd3 c (x.getD i 0) (x.getD (LIMBS - 1 - i) 0)) (s.1.1, s.1.2, 0) := by
    refine triple_eq_of_val3 _ _ hS0 hS1 hS2 hM0 hM1 hM2 ?_
    rw [hSv, hMv, hdblsum, hpair]
  simp only [sqrLast, mulLast]
  rw [e]

theorem squareCore_eq (x : List Nat) (hx : wfN x) : squareCore x = multiplyCore x x := by
  have hfold : ∀ j, j ≤ 47 → (List.range j).foldl (sqrStep x) ((0, 0), []) =
      (List.range j).foldl (mulStep x x) ((0, 0), []) := by
    intro j
    induction j with
    | zero => intro _; rfl
    | succ j ih =>
      intro hj
      obtain ⟨p1, p2, p3, p4, p5, p6⟩ := mulPass1_inv x x hx hx j (by omega)
      rw [List.range_succ, List.foldl_append, List.foldl_append, List.foldl_cons,
        List.foldl_cons, List.foldl_nil, List.foldl_nil, ih (by omega)]
      exact sqrStep_eq x hx j (by omega) _ p3 p4
  obtain ⟨p1, p2, p3, p4, p5, p6⟩ := mulPass1_inv x x hx hx 47 (Nat.le_refl _)
  have h47 := hfold 47 (Nat.le_refl _)
  have hlast : sqrLast x ((List.range 47).foldl (mulStep x x) ((0, 0), [])) =
      mulLast x x ((List.range 47).foldl (mulStep x x) ((0, 0), [])) :=
    sqrLast_eq x hx _ p3 p4
  rw [show squareCore x = mulPass2 (muln2 (sqrLast x
      ((List.range 47).foldl (sqrStep x) ((0, 0), []))).1 MAX_PRIME_DIFF)
      (sqrLast x ((List.range 47).foldl (sqrStep x) ((0, 0), []))).2 from rfl,
    show multiplyCore x x = mulPass2 (muln2 (mulLast x x
      ((List.range 47).foldl (mulStep x x) ((0, 0), []))).1 MAX_PRIME_DIFF)
      (mulLast x x ((List.range 47).foldl (mulStep x x) ((0, 0), []))).2 from rfl,
    h47, hlast]

theorem Square_eq (x : List Nat) (hx : wfN x) : Square x = Multiply x x := by
  have h := squareCore_eq x hx
  rw [show Square x = (if (squareCore x).2.1 ≠ 0 then FullReduce (squareCore x).1
      else (squareCore x).1) from rfl,
    show Multiply x x = (if (multiplyCore x x).2.1 ≠ 0 then FullReduce (multiplyCore x x).1
      else (multiplyCore x x).1) from rfl,
    h]

theorem Square_val (x : List Nat) (hx : wfN x) :
    wfN (Square x) ∧ limbsVal (Square x) ≡ limbsVal x * limbsVal x [MOD P] := by
  rw [Square_eq x hx]
  exact Multiply_val x x hx hx

theorem nsquare_val (n : Nat) (x : List Nat) (hx : wfN x) :
    wfN (nsquare n x) ∧ limbsVal (nsquare n x) ≡ limbsVal x ^ 2 ^ n [MOD P] := by
  induction n generalizing x with
  | zero => exact ⟨hx, by simpa using Nat.ModEq.refl (limbsVal x)⟩
  | succ n ih =>
    obtain ⟨hw, hv⟩ := Square_val x hx
    obtain ⟨hw2, hv2⟩ := ih (Square x) hw
    refine ⟨hw2, ?_⟩
    calc limbsVal (nsquare (n + 1) x) = limbsVal (nsquare n (Square x)) := rfl
      _ ≡ limbsVal (Square x) ^ 2 ^ n [MOD P] := hv2
      _ ≡ (limbsVal x * limbsVal x) ^ 2 ^ n [MOD P] := hv.pow _
      _ = limbsVal x ^ 2 ^ (n + 1) := by
          rw [← pow_two, ← pow_mul, pow_succ, Nat.mul_comm 2 (2 ^ n)]

theorem ptab_val (a : List Nat) (ha : wfN a) (i : Nat) :
    wfN (ptab a i) ∧ limbsVal (ptab a i) ≡ limbsVal a ^ (2 ^ 2 ^ i - 1) [MOD P] := by
  induction i with
  | zero => exact ⟨ha, by simpa using Nat.ModEq.refl (limbsVal a)⟩
  | succ i ih =>
    obtain ⟨hw, hv⟩ := ih
    obtain ⟨hnw, hnv⟩ := nsquare_val (2 ^ i) (ptab a i) hw
    obtain ⟨hmw, hmv⟩ := Multiply_val (nsquare (2 ^ i) (ptab a i)) (ptab a i) hnw hw
    refine ⟨hmw, ?_⟩
    have h1 : limbsVal (nsquare (2 ^ i) (ptab a i)) ≡
        limbsVal a ^ ((2 ^ 2 ^ i - 1) * 2 ^ 2 ^ i) [MOD P] := by
      calc limbsVal (nsquare (2 ^ i) (ptab a i))
          ≡ limbsVal (ptab a i) ^ 2 ^ 2 ^ i [MOD P] := hnv
        _ ≡ (limbsVal a ^ (2 ^ 2 ^ i - 1)) ^ 2 ^ 2 ^ i [MOD P] := hv.pow _
        _ = limbsVal a ^ ((2 ^ 2 ^ i - 1) * 2 ^ 2 ^ i) := (pow_mul _ _ _).symm
    have h2 : limbsVal (ptab a (i + 1)) ≡
        limbsVal a ^ ((2 ^ 2 ^ i - 1) * 2 ^ 2 ^ i + (2 ^ 2 ^ i - 1)) [MOD P] := by
      calc limbsVal (ptab a (i + 1))
          = limbsVal (Multiply (nsquare (2 ^ i) (ptab a i)) (ptab a i)) := rfl
        _ ≡ limbsVal (nsquare (2 ^ i) (ptab a i)) * limbsVal (ptab a i) [MOD P] := hmv
        _ ≡ limbsVal a ^ ((2 ^ 2 ^ i - 1) * 2 ^ 2 ^ i) * limbsVal a ^ (2 ^ 2 ^ i - 1)
            [MOD P] := h1.mul hv
        _ = limbsVal a ^ ((2 ^ 2 ^ i - 1) * 2 ^ 2 ^ i + (2 ^ 2 ^ i - 1)) :=
            (pow_add _ _ _).symm
    have he : (2 ^ 2 ^ i - 1) * 2 ^ 2 ^ i + (2 ^ 2 ^ i - 1) = 2 ^ 2 ^ (i + 1) - 1 := by
      have hpos : 0 < 2 ^ 2 ^ i := Nat.two_pow_pos _
      have hsq : 2 ^ 2 ^ (i + 1) = 2 ^ 2 ^ i * 2 ^ 2 ^ i := by
        rw [← pow_add, pow_succ, Nat.mul_two]
      obtain ⟨t, ht⟩ : ∃ t, 2 ^ 2 ^ i = t + 1 :=
        ⟨2 ^ 2 ^ i - 1, (Nat.succ_pred_eq_of_pos hpos).symm⟩
      rw [hsq, ht]
      simp only [Nat.add_sub_cancel]
      have hx : (t + 1) * (t + 1) = t * (t + 1) + (t + 1) := by ring
      omega
    rw [he] at h2
    exact h2

theorem step_val (n e f v : Nat) (x t : List Nat) (hx : wfN x) (ht : wfN t)
    (hvx : limbsVal x ≡ v ^ e [MOD P]) (hvt : limbsVal t ≡ v ^ f [MOD P]) :
    wfN (Multiply (nsquare n x) t) ∧
      limbsVal (Multiply (nsquare n x) t) ≡ v ^ (e * 2 ^ n + f) [MOD P] := by
  obtain ⟨hnw, hnv⟩ := nsquare_val n x hx
  obtain ⟨hmw, hmv⟩ := Multiply_val (nsquare n x) t hnw ht
  refine ⟨hmw, ?_⟩
  calc limbsVal (Multiply (nsquare n x) t)
      ≡ limbsVal (nsquare n x) * limbsVal t [MOD P] := hmv
    _ ≡ (v ^ e) ^ 2 ^ n * v ^ f [MOD P] := (hnv.trans (hvx.pow _)).mul hvt
    _ = v ^ (e * 2 ^ n + f) := by rw [← pow_mul, ← pow_add]

set_option maxHeartbeats 4000000 in
theorem chain_exp :
    (((((((((((((((2 ^ 2 ^ 11 - 1) * 2 ^ 512 + (2 ^ 2 ^ 9 - 1)) * 2 ^ 256 +
    (2 ^ 2 ^ 8 - 1)) * 2 ^ 128 + (2 ^ 2 ^ 7 - 1)) * 2 ^ 64 + (2 ^ 2 ^ 6 - 1)) * 2 ^ 32 +
    (2 ^ 2 ^ 5 - 1)) * 2 ^ 8 + (2 ^ 2 ^ 3 - 1)) * 2 ^ 2 + (2 ^ 2 ^ 1 - 1)) * 2 ^ 1 +
    (2 ^ 2 ^ 0 - 1)) * 2 ^ 5 + (2 ^ 2 ^ 2 - 1)) * 2 ^ 3 + (2 ^ 2 ^ 0 - 1)) * 2 ^ 2 +
    (2 ^ 2 ^ 0 - 1)) * 2 ^ 4 + (2 ^ 2 ^ 0 - 1)) * 2 ^ 4 + (2 ^ 2 ^ 1 - 1)) * 2 ^ 3 +
    (2 ^ 2 ^ 0 - 1)) = P - 2 := by decide

set_option maxHeartbeats 4000000 in
theorem Inverse_val (a : List Nat) (ha : wfN a) :
    wfN (Inverse a) ∧ limbsVal (Inverse a) ≡ limbsVal a ^ (P - 2) [MOD P] := by
  obtain ⟨w11, v11⟩ := ptab_val a ha 11
  obtain ⟨w9, v9⟩ := ptab_val a ha 9
  obtain ⟨w8, v8⟩ := ptab_val a ha 8
  obtain ⟨w7, v7⟩ := ptab_val a ha 7
  obtain ⟨w6, v6⟩ := ptab_val a ha 6
  obtain ⟨w5, v5⟩ := ptab_val a ha 5
  obtain ⟨w3, v3⟩ := ptab_val a ha 3
  obtain ⟨w2, v2⟩ := ptab_val a ha 2
  obtain ⟨w1, v1⟩ := ptab_val a ha 1
  obtain ⟨w0, v0⟩ := ptab_val a ha 0
  have s1 := step_val 512 _ _ _ _ _ w11 w9 v11 v9
  have s2 := step_val 256 _ _ _ _ _ s1.1 w8 s1.2 v8
  have s3 := step_val 128 _ _ _ _ _ s2.1 w7 s2.2 v7
  have s4 := step_val 64 _ _ _ _ _ s3.1 w6 s3.2 v6
  have s5 := step_val 32 _ _ _ _ _ s4.1 w5 s4.2 v5
  have s6 := step_val 8 _ _ _ _ _ s5.1 w3 s5.2 v3
  have s7 := step_val 2 _ _ _ _ _ s6.1 w1 s6.2 v1
  have s8 := step_val 1 _ _ _ _ _ s7.1 w0 s7.2 v0
  have s9 := step_val 5 _ _ _ _ _ s8.1 w2 s8.2 v2
  have s10 := step_val 3 _ _ _ _ _ s9.1 w0 s9.2 v0
  have s11 := step_val 2 _ _ _ _ _ s10.1 w0 s10.2 v0
  have s12 := step_val 4 _ _ _ _ _ s11.1 w0 s11.2 v0
  have s13 := step_val 4 _ _ _ _ _ s12.1 w1 s12.2 v1
  have s14 := step_val 3 _ _ _ _ _ s13.1 w0 s13.2 v0
  rw [chain_exp] at s14
  simpa only [Inverse] using s14

theorem getD_ltc {l : List Nat} {c : Nat} (hc : 0 < c) (h : ∀ v ∈ l, v < c) (n : Nat) :
    l.getD n 0 < c := by
  induction l generalizing n with
  | nil => simpa [List.getD_nil] using hc
  | cons a l ih =>
    cases n with
    | zero => rw [List.getD_cons_zero]; exact h a (List.mem_cons_self _ _)
    | succ n => rw [List.getD_cons_succ]; exact ih (fun v hv => h v (List.mem_cons_of_mem a hv)) n

theorem readLE64_lt (b : List Nat) (off : Nat) (hb : ∀ v ∈ b, v < 256) :
    readLE64 b off < 2 ^ 64 := by
  have h0 := getD_ltc (by norm_num) hb (off + 0)
  have h1 := getD_ltc (by norm_num) hb (off + 1)
  have h2 := getD_ltc (by norm_num) hb (off + 2)
  have h3 := getD_ltc (by norm_num) hb (off + 3)
  have h4 := getD_ltc (by norm_num) hb (off + 4)
  have h5 := getD_ltc (by norm_num) hb (off + 5)
  have h6 := getD_ltc (by norm_num) hb (off + 6)
  have h7 := getD_ltc (by norm_num) hb (off + 7)
  have e : readLE64 b off = b.getD (off + 0) 0 * 1 + (b.getD (off + 1) 0 * 256 +
      (b.getD (off + 2) 0 * 65536 + (b.getD (off + 3) 0 * 16777216 +
      (b.getD (off + 4) 0 * 4294967296 + (b.getD (off + 5) 0 * 1099511627776 +
      (b.getD (off + 6) 0 * 281474976710656 +
      (b.getD (off + 7) 0 * 72057594037927936 + 0))))))) := rfl
  rw [e]
  omega

theorem fromKeystream_wf (ks : List Nat) (hks : ∀ b ∈ ks, b < 256) :
    wfN (fromKeystream ks).data := by
  constructor
  · simp [fromKeystream, LIMBS]
  · intro v hv
    simp only [fromKeystream, List.mem_map, List.mem_range] at hv
    obtain ⟨i, _, rfl⟩ := hv
    exact readLE64_lt ks _ hks

theorem limbsVal_inj : ∀ (l₁ l₂ : List Nat), l₁.length = l₂.length →
    (∀ v ∈ l₁, v < 2 ^ 64) → (∀ v ∈ l₂, v < 2 ^ 64) →
    limbsVal l₁ = limbsVal l₂ → l₁ = l₂
  | [], [], _, _, _, _ => rfl
  | [], b :: bs, hl, _, _, _ => by simp at hl
  | a :: as, [], hl, _, _, _ => by simp at hl
  | a :: as, b :: bs, hl, h1, h2, hv => by
    have ha := h1 a (List.mem_cons_self _ _)
    have hb := h2 b (List.mem_cons_self _ _)
    have e1 : limbsVal (a :: as) = a + 2 ^ 64 * limbsVal as := rfl
    have e2 : limbsVal (b :: bs) = b + 2 ^ 64 * limbsVal bs := rfl
    rw [e1, e2] at hv
    have hab : a = b ∧ limbsVal as = limbsVal bs := by constructor <;> omega
    have htl : as = bs := limbsVal_inj as bs (by simpa using hl)
      (fun v h => h1 v (List.mem_cons_of_mem a h))
      (fun v h => h2 v (List.mem_cons_of_mem b h)) hab.2
    rw [hab.1, htl]

theorem limbsVal_maxed (l : List Nat) (hb : ∀ v ∈ l, v < 2 ^ 64) :
    limbsVal l = 2 ^ (64 * l.length) - 1 ↔ ∀ j, j < l.length → l.getD j 0 = 2 ^ 64 - 1 := by
  induction l with
  | nil => simp [limbsVal]
  | cons a l ih =>
    have ha := hb a (List.mem_cons_self _ _)
    have hbl : ∀ v ∈ l, v < 2 ^ 64 := fun v hv => hb v (List.mem_cons_of_mem a hv)
    have hiv := ih hbl
    have hvlt := limbsVal_lt hbl
    have hsplit : (2 : Nat) ^ (64 * (a :: l).length) = 2 ^ 64 * 2 ^ (64 * l.length) := by
      rw [List.length_cons, show 64 * (l.length + 1) = 64 + 64 * l.length by ring, pow_add]
    have hval : limbsVal (a :: l) = a + 2 ^ 64 * limbsVal l := rfl
    have hp : 0 < (2 : Nat) ^ (64 * l.length) := Nat.two_pow_pos _
    constructor
    · intro h j hj
      have hd : a = 2 ^ 64 - 1 ∧ limbsVal l = 2 ^ (64 * l.length) - 1 := by
        rw [hval, hsplit] at h
        constructor <;> omega
      match j with
      | 0 => exact hd.1
      | j + 1 =>
        have := hiv.mp hd.2 j (by simp at hj; omega)
        simpa using this
    · intro h
      have h0 : a = 2 ^ 64 - 1 := h 0 (by simp)
      have h1 : limbsVal l = 2 ^ (64 * l.length) - 1 :=
        hiv.mpr fun j hj => by simpa using h (j + 1) (by simp; omega)
      rw [hval, hsplit, h0, h1]
      omega

theorem isOverflow_iff (d : List Nat) (hw : wfN d) :
    IsOverflow d = true ↔ P ≤ limbsVal d := by
  obtain ⟨hlen, hb⟩ := hw
  obtain ⟨a, rest, rfl⟩ : ∃ a rest, d = a :: rest := by
    cases d with
    | nil => simp [LIMBS] at hlen
    | cons a rest => exact ⟨a, rest, rfl⟩
  have ha := hb a (List.mem_cons_self _ _)
  have hbr : ∀ v ∈ rest, v < 2 ^ 64 := fun v hv => hb v (List.mem_cons_of_mem a hv)
  have hrl : rest.length = 47 := by
    have : (a :: rest).length = 48 := hlen
    simpa using this
  have hvr := limbsVal_lt hbr
  rw [hrl] at hvr
  have hbool : IsOverflow (a :: rest) = true ↔
      (2 ^ 64 - 1 - MAX_PRIME_DIFF < a ∧
        ∀ i ∈ List.range' 1 (LIMBS - 1), (a :: rest).getD i 0 = 2 ^ 64 - 1) := by
    simp [IsOverflow, List.all_eq_true]
  have hidx : (∀ i ∈ List.range' 1 (LIMBS - 1), (a :: rest).getD i 0 = 2 ^ 64 - 1) ↔
      ∀ j, j < rest.length → rest.getD j 0 = 2 ^ 64 - 1 := by
    constructor
    · intro h j hj
      rw [hrl] at hj
      have := h (j + 1) (by rw [List.mem_range'_1, LIMBS_eq]; omega)
      simpa using this
    · intro h i hi
      rw [List.mem_range'_1, LIMBS_eq] at hi
      obtain ⟨j, rfl⟩ : ∃ j, i = j + 1 := ⟨i - 1, by omega⟩
      simpa using h j (by omega)
  have hmx := limbsVal_maxed rest hbr
  rw [hrl] at hmx
  rw [hbool, hidx, hrl, ← hmx]
  have hval : limbsVal (a :: rest) = a + 2 ^ 64 * limbsVal rest := rfl
  rw [hval, show (64 * 47 : Nat) = 3008 from rfl,
    show P = 2 ^ 3072 - 1103717 from rfl,
    show MAX_PRIME_DIFF = 1103717 from rfl]
  omega

theorem val_near (d : List Nat) (hw : wfN d) (r : Nat) (hr : r < P)
    (h : limbsVal d ≡ r [MOD P]) : limbsVal d = r ∨ limbsVal d = r + P := by
  have hlt : limbsVal d < 2 ^ (64 * d.length) := limbsVal_lt hw.2
  rw [hw.1] at hlt
  have hlt2 : limbsVal d < 2 ^ 3072 := by
    have e : (2 : Nat) ^ (64 * LIMBS) = 2 ^ 3072 := rfl
    rw [e] at hlt
    exact hlt
  have hm : limbsVal d % P = r := by
    rw [Nat.ModEq] at h
    rw [h, Nat.mod_eq_of_lt hr]
  obtain ⟨q, hq⟩ : ∃ q, limbsVal d = P * q + r :=
    ⟨limbsVal d / P, by rw [← hm]; exact (Nat.div_add_mod _ _).symm⟩
  have hPval : P = 2 ^ 3072 - 1103717 := rfl
  rw [hPval] at hq hr ⊢
  omega

theorem finalize_bytes (d : List Nat) (hw : wfN d) (r : Nat) (hr : r < P)
    (h : limbsVal d ≡ r [MOD P]) (canon : List Nat) (hcw : wfN canon)
    (hcv : limbsVal canon = r) :
    (finalizeMuHash ⟨d⟩).2 = (canon.map writeLE64).flatten := by
  rcases val_near d hw r hr h with hv | hv
  · have hov : IsOverflow d = false := by
      cases hb : IsOverflow d
      · rfl
      · have := (isOverflow_iff d hw).mp hb
        omega
    have hdd : d = canon := limbsVal_inj d canon (hw.1.trans hcw.1.symm) hw.2 hcw.2
      (by rw [hv, hcv])
    rw [hdd] at hov ⊢
    simp [finalizeMuHash, hov]
  · have hov : IsOverflow d = true := (isOverflow_iff d hw).mpr (by omega)
    obtain ⟨hfv, hfw⟩ := FullReduce_val d hw
    have hfr : limbsVal (FullReduce d) = r := by
      rw [hfv, hv]
      have e1 : r + P + MAX_PRIME_DIFF = r + 2 ^ 3072 := by
        rw [show P = 2 ^ 3072 - 1103717 from rfl, show MAX_PRIME_DIFF = 1103717 from rfl]
        omega
      rw [e1, Nat.add_mod_right]
      exact Nat.mod_eq_of_lt (by
        rw [show P = 2 ^ 3072 - 1103717 from rfl] at hr
        omega)
    have hdd : FullReduce d = canon :=
      limbsVal_inj _ _ (hfw.1.trans hcw.1.symm) hfw.2 hcw.2 (by rw [hfr, hcv])
    simp [finalizeMuHash, hov, hdd]

theorem finalize_pure (h : MuHash3072) (hw : wfN h.data) :
    (finalizeMuHash (finalizeMuHash h).1).2 = (finalizeMuHash h).2 ∧
      limbsVal (finalizeMuHash h).1.data ≡ limbsVal h.data [MOD P] := by
  cases hov : IsOverflow h.data with
  | false =>
    have e : (finalizeMuHash h).1 = ⟨h.data⟩ := by simp [finalizeMuHash, hov]
    exact ⟨by rw [e], by rw [e]⟩
  | true =>
    have hP : P ≤ limbsVal h.data := (isOverflow_iff h.data hw).mp hov
    obtain ⟨hfv, hfw⟩ := FullReduce_val h.data hw
    have hlt2 : limbsVal h.data < 2 ^ 3072 := by
      have hlt : limbsVal h.data < 2 ^ (64 * h.data.length) := limbsVal_lt hw.2
      rw [hw.1] at hlt
      have e : (2 : Nat) ^ (64 * LIMBS) = 2 ^ 3072 := rfl
      rw [e] at hlt
      exact hlt
    have hfr : limbsVal (FullReduce h.data) = limbsVal h.data - P := by
      rw [hfv]
      rw [show P = 2 ^ 3072 - 1103717 from rfl] at hP
      rw [show MAX_PRIME_DIFF = 1103717 from rfl, show P = 2 ^ 3072 - 1103717 from rfl]
      have e1 : limbsVal h.data + 1103717 = limbsVal h.data - (2 ^ 3072 - 1103717) + 2 ^ 3072 := by
        omega
      rw [e1, Nat.add_mod_right]
      exact Nat.mod_eq_of_lt (by omega)
    have e : (finalizeMuHash h).1 = ⟨FullReduce h.data⟩ := by simp [finalizeMuHash, hov]
    have hov2 : IsOverflow (FullReduce h.data) = false := by
      cases hb : IsOverflow (FullReduce h.data)
      · rfl
      · have h2 := (isOverflow_iff _ hfw).mp hb
        rw [hfr] at h2
        rw [show P = 2 ^ 3072 - 1103717 from rfl] at h2 hP
        omega
    constructor
    · rw [e]
      simp [finalizeMuHash, hov, hov2]
    · rw [e]
      show limbsVal (FullReduce h.data) ≡ limbsVal h.data [MOD P]
      rw [hfr]
      have e2 : limbsVal h.data = limbsVal h.data - P + P := by omega
      conv_rhs => rw [e2]
      exact (Nat.add_mod_right _ _).symm

/-- Claim C1 (amended): for well-formed operands, Multiply replaces the
accumulator by a well-formed 48-limb number congruent to the product of the
two values modulo P; the output is not always the canonical representative,
as it can land in the overflow window [P, 2 ^ 3072). -/
theorem C1_multiply_mod (x y : List Nat) (hx : wfN x) (hy : wfN y) :
    wfN (Multiply x y) ∧ limbsVal (Multiply x y) ≡ limbsVal x * limbsVal y [MOD P] :=
  Multiply_val x y hx hy

/-- Claim C1 witness: the amended claim at the concrete operands cexX and cexY. -/
theorem C1_witness : wfN cexX ∧ wfN cexY ∧ (wfN (Multiply cexX cexY) ∧
    limbsVal (Multiply cexX cexY) ≡ limbsVal cexX * limbsVal cexY [MOD P]) :=
  ⟨by decide, by decide, C1_multiply_mod cexX cexY (by decide) (by decide)⟩

set_option maxHeartbeats 4000000 in
/-- Claim C1 counterexample: both operands are canonical (value below P), yet
Multiply returns the value P + 1, which is neither the residue
(2 * ((P + 1) / 2)) mod P = 1 nor canonical. -/
theorem C1_counterexample :
    limbsVal cexX < P ∧ limbsVal cexY < P ∧
      limbsVal (Multiply cexX cexY) ≠ limbsVal cexX * limbsVal cexY % P ∧
      ¬ limbsVal (Multiply cexX cexY) < P := by
  have hA : (List.range' 0 12).foldl (mulStep cexX cexY) ((0, 0), []) =
      ((1, 0), 18446744073708447900 :: List.replicate 11 18446744073709551615) := by rfl
  have hB : (List.range' 12 12).foldl (mulStep cexX cexY)
      ((1, 0), 18446744073708447900 :: List.replicate 11 18446744073709551615) =
      ((1, 0), 18446744073708447900 :: List.replicate 23 18446744073709551615) := by rfl
  have hC : (List.range' 24 12).foldl (mulStep cexX cexY)
      ((1, 0), 18446744073708447900 :: List.replicate 23 18446744073709551615) =
      ((1, 0), 18446744073708447900 :: List.replicate 35 18446744073709551615) := by rfl
  have hD : (List.range' 36 11).foldl (mulStep cexX cexY)
      ((1, 0), 18446744073708447900 :: List.replicate 35 18446744073709551615) =
      ((1, 0), 18446744073708447900 :: List.replicate 46 18446744073709551615) := by rfl
  have hsplit : List.range 47 = ((List.range' 0 12 ++ List.range' 12 12) ++
      List.range' 24 12) ++ List.range' 36 11 := by rfl
  have hPre : (List.range (LIMBS - 1)).foldl (mulStep cexX cexY) ((0, 0), []) =
      ((1, 0), 18446744073708447900 :: List.replicate 46 18446744073709551615) := by
    rw [show List.range (LIMBS - 1) = List.range 47 from rfl, hsplit,
      List.foldl_append, List.foldl_append, List.foldl_append, hA, hB, hC, hD]
  have hLast : mulLast cexX cexY
      ((1, 0), 18446744073708447900 :: List.replicate 46 18446744073709551615) =
      ((0, 0), 18446744073708447900 :: List.replicate 47 18446744073709551615) := by rfl
  have hCore : multiplyCore cexX cexY =
      (18446744073708447900 :: List.replicate 47 18446744073709551615, (0, 0)) := by
    rw [show multiplyCore cexX cexY = mulPass2 (muln2 (mulLast cexX cexY
      ((List.range (LIMBS - 1)).foldl (mulStep cexX cexY) ((0, 0), []))).1 MAX_PRIME_DIFF)
      (mulLast cexX cexY ((List.range (LIMBS - 1)).foldl (mulStep cexX cexY)
      ((0, 0), []))).2 from rfl, hPre, hLast]
    rfl
  have hMul : Multiply cexX cexY =
      18446744073708447900 :: List.replicate 47 18446744073709551615 := by
    rw [show Multiply cexX cexY = (if (multiplyCore cexX cexY).2.1 ≠ 0 then
      FullReduce (multiplyCore cexX cexY).1 else (multiplyCore cexX cexY).1) from rfl, hCore]
    simp
  rw [hMul]
  exact ⟨by decide, by decide, by decide, by decide⟩

set_option maxHeartbeats 4000000 in
/-- Claim C3 counterexample: the keystream ksP produces a nonzero accumulator
value (namely P itself), yet dividing that accumulator by itself and
finalizing yields the all-zero digest, not the identity digest. -/
theorem C3_counterexample :
    limbsVal (fromKeystream ksP).data ≠ 0 ∧
      (finalizeMuHash (opDivAssign (fromKeystream ksP) (fromKeystream ksP)).1).2 ≠
        (finalizeMuHash identityMuHash).2 := by
  have hdata : (fromKeystream ksP).data = pLimbs := by rfl
  have hval : limbsVal pLimbs = P := by rfl
  have hwf : wfN pLimbs := by decide
  have hmod : limbsVal pLimbs ≡ 0 [MOD P] := by
    rw [Nat.ModEq, hval, Nat.mod_self, Nat.zero_mod]
  obtain ⟨hiw, _⟩ := Inverse_val pLimbs hwf
  obtain ⟨hmw, hmv⟩ := Multiply_val pLimbs (Inverse pLimbs) hwf hiw
  have hmod2 : limbsVal (Multiply pLimbs (Inverse pLimbs)) ≡ 0 [MOD P] := by
    calc limbsVal (Multiply pLimbs (Inverse pLimbs))
        ≡ limbsVal pLimbs * limbsVal (Inverse pLimbs) [MOD P] := hmv
      _ ≡ 0 * limbsVal (Inverse pLimbs) [MOD P] := hmod.mul_right _
      _ = 0 := Nat.zero_mul _
  have hbytes : (finalizeMuHash ⟨Multiply pLimbs (Inverse pLimbs)⟩).2 =
      ((List.replicate 48 0).map writeLE64).flatten :=
    finalize_bytes _ hmw 0 (by decide) hmod2 (List.replicate 48 0) (by decide) (by decide)
  constructor
  · rw [hdata, hval]
    decide
  · have e : (opDivAssign (fromKeystream ksP) (fromKeystream ksP)).1 =
        (⟨Multiply pLimbs (Inverse pLimbs)⟩ : MuHash3072) := by
      show (⟨Multiply (fromKeystream ksP).data
        (Inverse (fromKeystream ksP).data)⟩ : MuHash3072) = _
      rw [hdata]
    rw [e, hbytes]
    decide

/-- Claim C3 (amended): for every byte keystream whose accumulator value v is
invertible by the algorithm, in the sense that v ^ (P - 2) * v is congruent to
1 modulo P (every v not divisible by P, by Fermat, P being prime; values that
are 0 modulo P, such as P itself, are excluded), dividing the accumulator by
itself and finalizing yields exactly the identity digest. -/
theorem C3_div_self (ks : List Nat) (hks : ∀ b ∈ ks, b < 256)
    (hv : limbsVal (fromKeystream ks).data ^ (P - 2) *
      limbsVal (fromKeystream ks).data ≡ 1 [MOD P]) :
    (finalizeMuHash (opDivAssign (fromKeystream ks) (fromKeystream ks)).1).2 =
      (finalizeMuHash identityMuHash).2 := by
  have hwf := fromKeystream_wf ks hks
  obtain ⟨hiw, hiv⟩ := Inverse_val (fromKeystream ks).data hwf
  obtain ⟨hmw, hmv⟩ := Multiply_val (fromKeystream ks).data
    (Inverse (fromKeystream ks).data) hwf hiw
  have hone : limbsVal (Multiply (fromKeystream ks).data
      (Inverse (fromKeystream ks).data)) ≡ 1 [MOD P] := by
    calc limbsVal (Multiply (fromKeystream ks).data (Inverse (fromKeystream ks).data))
        ≡ limbsVal (fromKeystream ks).data *
          limbsVal (Inverse (fromKeystream ks).data) [MOD P] := hmv
      _ ≡ limbsVal (fromKeystream ks).data *
          limbsVal (fromKeystream ks).data ^ (P - 2) [MOD P] :=
          (Nat.ModEq.refl _).mul hiv
      _ = limbsVal (fromKeystream ks).data ^ (P - 2) *
          limbsVal (fromKeystream ks).data := Nat.mul_comm _ _
      _ ≡ 1 [MOD P] := hv
  have h1P : (1 : Nat) < P := by decide
  have hid : wfN (1 :: List.replicate 47 0) := by decide
  have hidv : limbsVal (1 :: List.replicate 47 0) = 1 := by decide
  have hb1 := finalize_bytes _ hmw 1 h1P hone (1 :: List.replicate 47 0) hid hidv
  have hb2 := finalize_bytes (1 :: List.replicate 47 0) hid 1 h1P
    (by rw [Nat.ModEq, hidv]) (1 :: List.replicate 47 0) hid hidv
  have e : (opDivAssign (fromKeystream ks) (fromKeystream ks)).1 =
      (⟨Multiply (fromKeystream ks).data (Inverse (fromKeystream ks).data)⟩ :
        MuHash3072) := rfl
  have e2 : identityMuHash = (⟨1 :: List.replicate 47 0⟩ : MuHash3072) := rfl
  rw [e, e2, hb1, hb2]

/-- Claim C3 witness: the amended claim at the one-byte keystream giving the
accumulator value 1. -/
theorem C3_witness : (∀ b ∈ [1], b < 256) ∧
    (finalizeMuHash (opDivAssign (fromKeystream [1]) (fromKeystream [1])).1).2 =
      (finalizeMuHash identityMuHash).2 := by
  have h1 : limbsVal (fromKeystream [1]).data = 1 := by rfl
  refine ⟨by decide, C3_div_self [1] (by decide) ?_⟩
  rw [h1, Nat.mul_one, Nat.one_pow]

/-- Claim C4: the symmetry-optimised Square coincides with the schoolbook
Multiply applied to equal operands, limb for limb. -/
theorem C4_square (x : List Nat) (hx : wfN x) : Square x = Multiply x x :=
  Square_eq x hx

/-- Claim C4 witness: the claim at the concrete operand cexY. -/
theorem C4_witness : wfN cexY ∧ Square cexY = Multiply cexY cexY :=
  ⟨by decide, C4_square cexY (by decide)⟩

/-- Claim C5: IsOverflow returns true exactly when the represented value is at
least P, equivalently exactly when limb 0 exceeds 2 ^ 64 - 1 - 1103717 and
every limb 1 to 47 equals 2 ^ 64 - 1. -/
theorem C5_overflow (d : List Nat) (hw : wfN d) :
    ((IsOverflow d = true) ↔ P ≤ limbsVal d) ∧
      ((IsOverflow d = true) ↔ (2 ^ 64 - 1 - MAX_PRIME_DIFF < d.getD 0 0 ∧
        ∀ i, 1 ≤ i → i < LIMBS → d.getD i 0 = 2 ^ 64 - 1)) := by
  refine ⟨isOverflow_iff d hw, ?_⟩
  simp only [IsOverflow, Bool.and_eq_true, decide_eq_true_eq, List.all_eq_true,
    beq_iff_eq]
  constructor
  · rintro ⟨h0, h1⟩
    refine ⟨h0, fun i hi1 hi2 => h1 i ?_⟩
    rw [List.mem_range'_1]
    simp only [LIMBS_eq] at hi2 ⊢
    omega
  · rintro ⟨h0, h1⟩
    refine ⟨h0, fun i hi => ?_⟩
    rw [List.mem_range'_1] at hi
    simp only [LIMBS_eq] at hi
    exact h1 i (by omega) (by simp only [LIMBS_eq]; omega)

/-- Claim C5 witness: the claim at the concrete limb list pLimbs, which is
exactly at the overflow border. -/
theorem C5_witness : wfN pLimbs ∧
    (((IsOverflow pLimbs = true) ↔ P ≤ limbsVal pLimbs) ∧
      ((IsOverflow pLimbs = true) ↔ (2 ^ 64 - 1 - MAX_PRIME_DIFF < pLimbs.getD 0 0 ∧
        ∀ i, 1 ≤ i → i < LIMBS → pLimbs.getD i 0 = 2 ^ 64 - 1))) :=
  ⟨by decide, C5_overflow pLimbs (by decide)⟩

/-- Claim C6: FullReduce adds 1103717 modulo 2 ^ 3072 in general, and on the
overflow window [P, 2 ^ 3072) this takes the value v to the canonical v - P. -/
theorem C6_fullReduce (d : List Nat) (hw : wfN d) :
    limbsVal (FullReduce d) = (limbsVal d + MAX_PRIME_DIFF) % 2 ^ 3072 ∧
      (P ≤ limbsVal d → limbsVal (FullReduce d) = limbsVal d - P ∧
        limbsVal (FullReduce d) < P) := by
  obtain ⟨hfv, hfw⟩ := FullReduce_val d hw
  refine ⟨hfv, fun hP => ?_⟩
  have hlt2 : limbsVal d < 2 ^ 3072 := by
    have hlt : limbsVal d < 2 ^ (64 * d.length) := limbsVal_lt hw.2
    rw [hw.1] at hlt
    exact hlt
  rw [hfv]
  rw [show P = 2 ^ 3072 - 1103717 from rfl] at hP ⊢
  rw [show MAX_PRIME_DIFF = 1103717 from rfl]
  have e1 : limbsVal d + 1103717 = limbsVal d - (2 ^ 3072 - 1103717) + 2 ^ 3072 := by
    omega
  rw [e1, Nat.add_mod_right]
  constructor
  · exact Nat.mod_eq_of_lt (by omega)
  · rw [Nat.mod_eq_of_lt (by omega)]
    omega

/-- Claim C6 witness: the claim at the concrete limb list pLimbs, whose value
P reduces to 0. -/
theorem C6_witness : wfN pLimbs ∧
    (limbsVal (FullReduce pLimbs) = (limbsVal pLimbs + MAX_PRIME_DIFF) % 2 ^ 3072 ∧
      (P ≤ limbsVal pLimbs → limbsVal (FullReduce pLimbs) = limbsVal pLimbs - P ∧
        limbsVal (FullReduce pLimbs) < P)) :=
  ⟨by decide, C6_fullReduce pLimbs (by decide)⟩

/-- Claim C7: at the end of the second reduction pass of Multiply, and
likewise of Square, the residual carry c1 is 0 and c0 is at most 1, so the
DEBUG assertions hold and at most one conditional FullReduce is needed. -/
theorem C7_carries (x y : List Nat) (hx : wfN x) (hy : wfN y) :
    (multiplyCore x y).2.2 = 0 ∧ (multiplyCore x y).2.1 ≤ 1 ∧
      (squareCore x).2.2 = 0 ∧ (squareCore x).2.1 ≤ 1 := by
  obtain ⟨_, _, hm2, hm1, _, _⟩ := multiplyCore_val x y hx hy
  obtain ⟨_, _, hs2, hs1, _, _⟩ := multiplyCore_val x x hx hx
  rw [squareCore_eq x hx]
  exact ⟨hm2, hm1, hs2, hs1⟩

/-- Claim C7 witness: the claim at the concrete operands cexX and cexY. -/
theorem C7_witness : wfN cexX ∧ wfN cexY ∧
    ((multiplyCore cexX cexY).2.2 = 0 ∧ (multiplyCore cexX cexY).2.1 ≤ 1 ∧
      (squareCore cexX).2.2 = 0 ∧ (squareCore cexX).2.1 ≤ 1) :=
  ⟨by decide, by decide, C7_carries cexX cexY (by decide) (by decide)⟩

/-- Claim C8: Finalize is pure and non-destructive: the value represented by
the object is unchanged modulo P, and finalizing twice in a row writes the
same 384 bytes both times. -/
theorem C8_finalize (h : MuHash3072) (hw : wfN h.data) :
    limbsVal (finalizeMuHash h).1.data ≡ limbsVal h.data [MOD P] ∧
      (finalizeMuHash (finalizeMuHash h).1).2 = (finalizeMuHash h).2 := by
  obtain ⟨h1, h2⟩ := finalize_pure h hw
  exact ⟨h2, h1⟩

/-- Claim C8 witness: the claim at the empty-set accumulator. -/
theorem C8_witness : wfN identityMuHash.data ∧
    (limbsVal (finalizeMuHash identityMuHash).1.data ≡
        limbsVal identityMuHash.data [MOD P] ∧
      (finalizeMuHash (finalizeMuHash identityMuHash).1).2 =
        (finalizeMuHash identityMuHash).2) :=
  ⟨by decide, C8_finalize identityMuHash (by decide)⟩

/-- Claim C9 counterexample: mulnadd3 discards the incoming third accumulator
limb c2, so with c = [0, 0, 1], d = [0, 0, 0] and n = 0 the result is not the
old accumulator plus d times n modulo 2 ^ 192. -/
theorem C9_counterexample :
    ¬ val3 (mulnadd3 (0, 0, 1) (0, 0, 0) 0) =
      (val3 (0, 0, 1) + 0 * val3 (0, 0, 0)) % 2 ^ 192 := by decide

/-- Claim C9 (amended): for every accumulator whose incoming third limb c2 is
0, as at every call site, mulnadd3 adds d times the single limb n into the
accumulator modulo 2 ^ 192. -/
theorem C9_mulnadd3 (c d : Nat × Nat × Nat) (n : Nat)
    (h0 : c.1 < 2 ^ 64) (h1 : c.2.1 < 2 ^ 64) (h2 : c.2.2 = 0)
    (hd0 : d.1 < 2 ^ 64) (hd1 : d.2.1 < 2 ^ 64) (hn : n < 2 ^ 64) :
    val3 (mulnadd3 c d n) = (val3 c + n * val3 d) % 2 ^ 192 := by
  obtain ⟨hv, _, _, _⟩ := mulnadd3_val c d n h0 h1 hd0 hd1 hn
  rw [hv, val3, val3, h2, Nat.mul_zero, Nat.add_zero]

/-- Claim C9 witness: the amended claim at a concrete accumulator and input. -/
theorem C9_witness : ((1, 2, 0) : Nat × Nat × Nat).2.2 = 0 ∧
    val3 (mulnadd3 (1, 2, 0) (3, 4, 5) 7) =
      (val3 (1, 2, 0) + 7 * val3 (3, 4, 5)) % 2 ^ 192 :=
  ⟨rfl, C9_mulnadd3 (1, 2, 0) (3, 4, 5) 7 (by decide) (by decide) rfl
    (by decide) (by decide) (by decide)⟩

/-- Claim C10: the multiplication and division assignment operators leave the
right-hand operand untouched, and division computes the inverse of the
operand into a temporary that is multiplied into the accumulator, never
inverting the accumulator itself. -/
theorem C10_frame (h x : MuHash3072) :
    (opMulAssign h x).2 = x ∧ (opDivAssign h x).2 = x ∧
      (opDivAssign h x).1.data = Multiply h.data (Inverse x.data) := by
  refine ⟨rfl, rfl, ?_⟩
  simp only [opDivAssign]

end MuHash
